import Mathlib

/-!
Verification of the snowcap-CDCL ordering-search core.

This file is a shallow embedding of the two source files of the repository
(`src/snowcap/src/dep_groups/strategy_trta.rs` and
`src/snowcap/src/permutators/tree.rs`), together with proofs and refutations
of the stated properties of that code.  External collaborators (the network
simulator, the hard-policy evaluator, the random source, `ModifierOrdering`
and the LTL oracle process) are not part of the sources; where they matter
they are modelled from the specification and passed in as explicit
parameters or outcome data.
-/

namespace Snowcap

/-! ## Option prober (`StrategyTRTA::get_next_option`) -/

/-- Result of one `hard_policy.step` call as the prober observes it: `Ok`,
or an error; a `NetworkError::ForwardingBlackHole` error carries the list of
black-holing router ids, every other error kind is opaque here. -/
inductive StepOutcome where
  | ok : StepOutcome
  | blackHole : List Nat → StepOutcome
  | otherErr : StepOutcome
deriving DecidableEq

/-- Modelled from the spec: the simulator and policy evaluator are external
(spec §6).  For one modifier of a probed group, `applyOk` tells whether
`net.apply_modifier` succeeds; when it does, `step` is the result of
`hard_policy.step` on the new forwarding state and `checkOk` the value of
`hard_policy.check()` afterwards. -/
structure ModOutcome where
  applyOk : Bool
  step : StepOutcome
  checkOk : Bool
deriving DecidableEq

/-- Data the `'apply_group` loop of `get_next_option` has accumulated when
it leaves: `mod_ok`, `num_undo`, `num_undo_policy` and
`error_node_indices`. -/
structure ProbeResult where
  modOk : Bool
  numUndo : Nat
  numUndoPolicy : Nat
  errorNodes : Option (List Nat)
deriving DecidableEq

/-- The `'apply_group` loop of `get_next_option`, one iteration per modifier
of the group: `num_undo` is incremented before the apply is attempted; on a
successful apply `num_undo_policy` is incremented, a black-hole `step` error
overwrites `error_node_indices`, and `hard_policy.check()` decides whether
to continue; a rejected apply breaks with `mod_ok = false`. -/
def applyGroupLoop : List ModOutcome → Nat → Nat → Option (List Nat) → ProbeResult
  | [], nu, nup, eni => ⟨true, nu, nup, eni⟩
  | o :: os, nu, nup, eni =>
    if o.applyOk then
      let eni' := match o.step with
        | .blackHole ns => some ns
        | _ => eni
      if o.checkOk then applyGroupLoop os (nu + 1) (nup + 1) eni'
      else ⟨false, nu + 1, nup + 1, eni'⟩
    else ⟨false, nu + 1, nup, eni⟩

/-- Probing one candidate group from the state at the top of the stack. -/
def probeGroup (outs : List ModOutcome) : ProbeResult :=
  applyGroupLoop outs 0 0 none

/-- The loop of `get_next_option` over the candidate positions; each pair is
`(group_pos, group_idx)` and `behavior group_idx` lists the simulator and
policy outcomes of probing that group from the restored current state.  A
clean probe returns its position; a failing probe is undone and, when it
captured `error_node_indices`, those routers are returned at once; only
otherwise is the next candidate tried.  After the last candidate the loop
falls through to `Err(vec![])`. -/
def getNextOptionLoop (behavior : Nat → List ModOutcome) :
    List (Nat × Nat) → Except (List Nat) Nat
  | [] => .error []
  | (groupPos, groupIdx) :: rest =>
    let r := probeGroup (behavior groupIdx)
    if r.modOk then .ok groupPos
    else
      match r.errorNodes with
      | some ns => .error ns
      | none => getNextOptionLoop behavior rest

/-- `StrategyTRTA::get_next_option`: try the candidates of
`frame.rem_groups` at positions `frame.idx`, `frame.idx + 1`, … in order. -/
def getNextOption (behavior : Nat → List ModOutcome) (remGroups : List Nat)
    (idx : Nat) : Except (List Nat) Nat :=
  getNextOptionLoop behavior ((remGroups.drop idx).enumFrom idx)

/-- The prober as the claim words it: the first position whose group applies
cleanly is returned; failure is returned only when every candidate at
positions `p ≥ idx` has failed, and it carries the last captured black-hole
router set (`[]` when no failing probe produced one). -/
def proberClaim (behavior : Nat → List ModOutcome) (remGroups : List Nat)
    (idx : Nat) : Except (List Nat) Nat :=
  let pairs := (remGroups.drop idx).enumFrom idx
  match pairs.find? (fun pr => (probeGroup (behavior pr.2)).modOk) with
  | some pr => .ok pr.1
  | none =>
    .error ((pairs.filterMap
      (fun pr => (probeGroup (behavior pr.2)).errorNodes)).getLast?.getD [])

/-- The prober as the code has it: scan the candidates in order for the
first decisive one - a clean success (return its position) or a failing
probe that captured black-hole routers (return those routers at once) - and
return `Err []` only when the scan ends with neither. -/
def proberAmended (behavior : Nat → List ModOutcome) (remGroups : List Nat)
    (idx : Nat) : Except (List Nat) Nat :=
  let pairs := (remGroups.drop idx).enumFrom idx
  match pairs.find? (fun pr =>
      (probeGroup (behavior pr.2)).modOk || (probeGroup (behavior pr.2)).errorNodes.isSome) with
  | some pr =>
    if (probeGroup (behavior pr.2)).modOk then .ok pr.1
    else .error ((probeGroup (behavior pr.2)).errorNodes.getD [])
  | none => .error []

/-- A concrete probe environment: the group with index `0` fails its policy
check while `step` reports black-holing router `7`; every other group
applies cleanly. -/
def c1behavior : Nat → List ModOutcome :=
  fun g => if g = 0 then [⟨true, .blackHole [7], false⟩] else [⟨true, .ok, true⟩]

/-- Number of `apply_modifier` calls a probe of a group makes (the code
increments `num_undo` for each, also for a rejected apply). -/
def attemptedApplies : List ModOutcome → Nat
  | [] => 0
  | o :: os => 1 + (if o.applyOk && o.checkOk then attemptedApplies os else 0)

/-- Number of modifier applications the simulator accepted during the probe
(what the claim calls the successful applies; the code counts them in
`num_undo_policy`). -/
def successfulApplies : List ModOutcome → Nat
  | [] => 0
  | o :: os =>
    if o.applyOk then (if o.checkOk then successfulApplies os + 1 else 1) else 0

/-- Whether every modifier of the probed group applied cleanly with the
check passing (the final value of `mod_ok`). -/
def allOk : List ModOutcome → Bool
  | [] => true
  | o :: os => o.applyOk && o.checkOk && allOk os

/-- Whether the probe ended because the simulator rejected an apply (rather
than because a policy check failed, or not at all). -/
def rejectedApply : List ModOutcome → Bool
  | [] => false
  | o :: os => if o.applyOk then (if o.checkOk then rejectedApply os else false) else true

/-- Modelled from the spec: an undo stack.  Pushing `n` records and popping
`m` of them again. -/
def pushRecords (n : Nat) (st : List Nat) : List Nat := List.replicate n 0 ++ st

/-- Popping `m` undo records. -/
def popRecords (m : Nat) (st : List Nat) : List Nat := st.drop m

/-! ## Stack frames and the driver's stuck handler (`StrategyTRTA::work`) -/

/-- Single stack frame for the iteration (`StackFrame`). -/
structure StackFrame where
  numUndo : Nat
  remGroups : List Nat
  idx : Nat
deriving DecidableEq

/-- `StackFrame::new`: materialize the candidate indices into a list and
shuffle it; `idx` starts at `0`.  The random source is external and is
modelled as the rearrangement `shuffle` it produces on the list. -/
def StackFrame.new (options : List Nat) (numUndo : Nat)
    (shuffle : List Nat → List Nat) : StackFrame :=
  ⟨numUndo, shuffle options, 0⟩

/-- The child frame pushed after a successful probe (success arm of the
`get_next_option` match in `work`): `rem_groups` is the parent's list with
the chosen group index filtered out, in the parent's order; `idx = 0`;
`num_undo = self.groups[next_group_idx].len()`.  No random source is
consulted. -/
def childFrame (parent : StackFrame) (nextGroupIdx : Nat) (groupLen : Nat) :
    StackFrame :=
  ⟨groupLen, parent.remGroups.filter (fun x => x != nextGroupIdx), 0⟩

/-- Abstract driver state: the stack (head of the list is the top frame),
`current_sequence`, and the simulator and policy-evaluator states abstracted
as the number of modifier applications currently applied on each
(`0` is the freshly cloned initial state). -/
structure DriverState where
  stack : List StackFrame
  currentSequence : List Nat
  netDepth : Nat
  policyDepth : Nat
deriving DecidableEq

/-- What `work` does when `get_next_option` fails (the `Err` arm plus the
code after the `match action`): the chosen `StackAction` is `Reset` - the
stack becomes one fresh shuffled root frame over all group indices,
`current_sequence` is cleared and net and policy are restored to clones of
the initial state - and afterwards, only when the indices extracted from the
oracle answer are non-empty, one extra frame
`{idx: 0, rem_groups: indices, num_undo: 0}` is pushed on top. -/
def stuckTransition (nGroups : Nat) (shuffle : List Nat → List Nat)
    (extracted : List Nat) (_ds : DriverState) : DriverState :=
  let base : DriverState :=
    ⟨[StackFrame.new (List.range nGroups) 0 shuffle], [], 0, 0⟩
  if extracted.isEmpty then base
  else ⟨⟨0, extracted, 0⟩ :: base.stack, base.currentSequence,
    base.netDepth, base.policyDepth⟩

/-- The `StackAction::Pop` arm of the driver: pop frames while the top frame
has no options left, undoing `num_undo` simulator and policy steps for each
popped frame and dropping the last entry of `current_sequence`. -/
def popLoop : List StackFrame → List Nat → Nat → Nat → DriverState
  | [], seq, nd, pd => ⟨[], seq, nd, pd⟩
  | f :: fs, seq, nd, pd =>
    if f.idx < f.remGroups.length then ⟨f :: fs, seq, nd, pd⟩
    else popLoop fs seq.dropLast (nd - f.numUndo) (pd - f.numUndo)

/-- The `StackAction::Pop` arm applied to a driver state. -/
def popTransition (ds : DriverState) : DriverState :=
  popLoop ds.stack ds.currentSequence ds.netDepth ds.policyDepth

/-- Backtracking one level as the claim describes it: pop the current stack
frame, undoing that frame's `num_undo` steps. -/
def claimPopOnce : DriverState → DriverState
  | ⟨[], seq, nd, pd⟩ => ⟨[], seq, nd, pd⟩
  | ⟨f :: fs, seq, nd, pd⟩ => ⟨fs, seq.dropLast, nd - f.numUndo, pd - f.numUndo⟩

/-- Reset semantics as the spec states them: discard the entire stack, clear
`current_sequence`, restore the simulator and the policy to fresh clones of
their initial states, and push a new root frame over all pool indices. -/
def resetSpec (nGroups : Nat) (shuffle : List Nat → List Nat) : DriverState :=
  ⟨[StackFrame.new (List.range nGroups) 0 shuffle], [], 0, 0⟩

/-! ## The cumulative LTL formula (`StrategyTRTA::work`, initialization) -/

/-- Decimal numeral, as Rust `format!` renders a `usize`. -/
def natStr (n : Nat) : String := toString n

/-- One conjunct `G(xi -> !xj & … )`, with one negated atom for every
`j ≠ i` below `bound`, in increasing order of `j`. -/
def gPart (bound i : Nat) : String :=
  "G(x" ++ natStr i ++ " -> " ++
    String.intercalate " & "
      (((List.range bound).filter (fun j => j != i)).map (fun j => "!x" ++ natStr j)) ++
    ")"

/-- `always_formula_parts` as the code builds it: the `G` conjuncts come
from two loops over the literal range `0..6` - regardless of the pool size,
which the function therefore ignores - and the `F` conjuncts are appended as
the literal string `" & F x0 & F x1 & F x2 & F x3 & F x4 & F x5\n"`. -/
def alwaysFormulaParts (_poolSize : Nat) : String :=
  String.intercalate " & " ((List.range 6).map (gPart 6)) ++
    " & F x0 & F x1 & F x2 & F x3 & F x4 & F x5\n"

/-- The initial value of the cumulative formula `aalta_input`. -/
def initialAaltaInput : String := "True"

/-- The frame constraints the claim describes for a pool of `n` input
modifications: `G(xi -> ⋀ j ≠ i, ¬xj)` for every `i < n` followed by `F xi`
for every `i < n`, over the atomic propositions `x0 … x(n-1)`. -/
def claimAlwaysParts (n : Nat) : String :=
  String.intercalate " & " ((List.range n).map (gPart n)) ++
    " & " ++
    String.intercalate " & " ((List.range n).map (fun i => "F x" ++ natStr i)) ++
    "\n"

/-! ## Strategy construction (`StrategyTRTA::new`) -/

/-- Errors `Strategy::new` can surface in the model: the dedicated invalid
initial state error, or a propagated policy-step error (the `?` on
`hard_policy.step` converts the `NetworkError` into the crate error). -/
inductive NewError where
  | invalidInitialState : NewError
  | propagated : StepOutcome → NewError
deriving DecidableEq

/-- `StrategyTRTA::new` on the initial state: the undo stack is cleared and
no modifier is applied; `hard_policy.step` runs once on the initial
forwarding state and its error, if any, is propagated by `?`; only when the
step succeeds and `hard_policy.check()` is false does construction fail with
`Error::InvalidInitialState`.  On success the groups are the singleton
groups of the modifiers, in input order. -/
def strategyNew (modifiers : List Nat) (initStep : StepOutcome)
    (initCheck : Bool) : Except NewError (List (List Nat)) :=
  match initStep with
  | .blackHole ns => .error (.propagated (.blackHole ns))
  | .otherErr => .error (.propagated .otherErr)
  | .ok =>
    if initCheck then .ok (modifiers.map (fun m => [m]))
    else .error .invalidInitialState

/-- An initial state that violates the hard policies, following spec §4.C
and §6: a violation is reported either through a `step` error (for instance
the forwarding-black-hole kind) or through `check()` returning false. -/
def initialViolation (initStep : StepOutcome) (initCheck : Bool) : Prop :=
  initStep ≠ .ok ∨ initCheck = false

/-! ## Oracle answer parsing (`StrategyTRTA::work`, sat extraction) -/

/-- Whitespace as `trim` sees it. -/
def isWs (c : Char) : Bool := c.isWhitespace

/-- `str::trim` on a list of characters. -/
def trimChars (l : List Char) : List Char :=
  ((l.dropWhile isWs).reverse.dropWhile isWs).reverse

/-- Split a list of characters at every occurrence of `sep` (Rust
`str::split`): always at least one part, empty parts preserved. -/
def splitOnChar (sep : Char) : List Char → List (List Char)
  | [] => [[]]
  | c :: cs =>
    let rest := splitOnChar sep cs
    if c = sep then [] :: rest
    else
      match rest with
      | [] => [[c]]
      | r :: rs => (c :: r) :: rs

/-- `str::lines`: split at `'\n'`, drop a final empty line, and strip one
trailing `'\r'` from each line. -/
def rustLines (l : List Char) : List (List Char) :=
  let parts := splitOnChar '\n' l
  let parts :=
    match parts.getLast? with
    | some [] => parts.dropLast
    | _ => parts
  parts.map (fun line => if line.getLast? = some '\r' then line.dropLast else line)

/-- One decimal digit. -/
def digitVal (c : Char) : Option Nat :=
  if c.isDigit then some (c.toNat - 48) else none

/-- All-digit parse of a non-empty character list. -/
def parseDigits : List Char → Option Nat
  | [] => none
  | cs => cs.foldl (fun acc c =>
      match acc, digitVal c with
      | some n, some d => some (n * 10 + d)
      | _, _ => none) (some 0)

/-- Rust `usize::from_str` restricted to the values the claims probe: an
optional leading `'+'` followed by one or more ASCII digits (overflow, which
the model's `Nat` does not have, is not modelled). -/
def parseUsize (l : List Char) : Option Nat :=
  match l with
  | '+' :: rest => parseDigits rest
  | _ => parseDigits l

/-- The token handling inside the extraction loop of `work`: trim the part;
when it starts with `"x"` (`take 1 = ['x']` models `starts_with`), parse the
rest (trimmed again) as a `usize`; else when it starts with `"(x"`, parse
what follows those two characters; any other token - in particular one
beginning with `'!'` - contributes nothing, as does a parse failure. -/
def tokenIndex (part : List Char) : Option Nat :=
  let t := trimChars part
  if t.take 1 = ['x'] then parseUsize (trimChars (t.drop 1))
  else if t.take 2 = ['(', 'x'] then parseUsize (trimChars (t.drop 2))
  else none

/-- The extraction in `work`: with `lines` the output's lines, only when
`lines.len() > 1` and `lines[1].trim() == "sat"` does the code walk the
lines from index 2 on, split each at `','` and push every index a token
yields, in order of appearance. -/
def extractIndices (output : List Char) : List Nat :=
  let lines := rustLines output
  if h : 1 < lines.length then
    if trimChars (lines.get ⟨1, h⟩) = ['s', 'a', 't'] then
      (lines.drop 2).foldl (fun acc line =>
        (splitOnChar ',' line).foldl (fun acc part =>
          match tokenIndex part with
          | some i => acc ++ [i]
          | none => acc) acc) []
    else []
  else []

/-- A positively-asserted proposition token as the claim describes it: a
token beginning with `!` contributes nothing; a token of the form `xN` or
`(xN` yields `N`. -/
def claimTokenIndex (part : List Char) : Option Nat :=
  let t := trimChars part
  if t.take 1 = ['!'] then none
  else if t.take 2 = ['(', 'x'] then parseUsize (trimChars (t.drop 2))
  else if t.take 1 = ['x'] then parseUsize (trimChars (t.drop 1))
  else none

/-- Whether the oracle answer's reported status is `sat`: at least two
lines, the second of which trims to `"sat"`. -/
def statusSat (output : List Char) : Bool :=
  match rustLines output with
  | _header :: status :: _ => trimChars status = ['s', 'a', 't']
  | _ => false

/-- The extraction as the claim describes it: the header line is ignored;
exactly when the status line is `sat`, the result is the ordered
concatenation, over the trace lines, of the indices of the
positively-asserted proposition tokens; otherwise no sequence is
extracted. -/
def claimExtract (output : List Char) : List Nat :=
  match rustLines output with
  | _header :: status :: trace =>
    if trimChars status = ['s', 'a', 't'] then
      (trace.map (fun line => (splitOnChar ',' line).filterMap claimTokenIndex)).flatten
    else []
  | _ => []

/-! ## Tree permutator (`permutators/tree.rs`) -/

/-- `((a)..(b)).rev().collect()`: the integers `a, …, b-1` in descending
order, as `TreePermutator::new` stores each `remaining` stack. -/
def revRange (a b : Nat) : List Nat := (List.range' a (b - a)).reverse

/-- The tree permutator.  `remaining[i]` stores the index choices still to
try at position `i` in reverse (descending) order, so that popping from the
back yields the ascending next choice. -/
structure TreePermutator (T : Type) where
  data : List T
  state : List Nat
  remaining : List (List Nat)
  len : Nat
  started : Bool

/-- `TreePermutator::new`.  `O::sort` belongs to the external
`ModifierOrdering`; modelled from the spec with the default `NoOrdering`,
which leaves the input unchanged, so the "sorted input" of the claims is the
input itself. -/
def TreePermutator.new (input : List T) : TreePermutator T :=
  ⟨input, List.range input.length,
    (List.range input.length).map (fun i => revRange (i + 1) input.length),
    input.length, false⟩

/-- `TreePermutator::fail_pos`: clear `remaining[i]` for every `i` with
`pos + 1 ≤ i < len`. -/
def TreePermutator.failPos (s : TreePermutator T) (pos : Nat) : TreePermutator T :=
  { s with remaining :=
      s.remaining.mapIdx (fun i r => if pos + 1 ≤ i ∧ i < s.len then [] else r) }

/-- `working_rem.sort_by_key(|&b| Reverse(b))`: sort into descending
order. -/
def sortDesc (l : List Nat) : List Nat := l.insertionSort (fun a b => a ≥ b)

/-- Position of the deepest non-empty `remaining` stack:
`remaining.iter().enumerate().rev().find(|(_, rem)| !rem.is_empty())`. -/
def lastNonempty : List (List Nat) → Option Nat
  | [] => none
  | r :: rs =>
    match lastNonempty rs with
    | some i => some (i + 1)
    | none => if r.isEmpty then none else some 0

/-- The refill loop of `next()`: for `k` further positions starting at
`pos`, pop the last (smallest) element of the descending pool into
`state[pos]` and store the popped pool as `remaining[pos]`.  `none` models
the panic of a failing `pop().unwrap()`. -/
def refillLoop : List Nat → List (List Nat) → List Nat → Nat → Nat →
    Option (List Nat × List (List Nat))
  | st, rem, _, _, 0 => some (st, rem)
  | st, rem, pool, pos, k + 1 =>
    match pool.getLast? with
    | none => none
    | some x =>
      refillLoop (st.set pos x) (rem.set pos pool.dropLast) pool.dropLast (pos + 1) k

/-- `state.iter().map(|idx| self.data.get(*idx).unwrap()).cloned().collect()`:
look every index up in `data`; `none` models the panic of a failed
`unwrap`. -/
def getAll (data : List T) : List Nat → Option (List T)
  | [] => some []
  | i :: is =>
    match data[i]?, getAll data is with
    | some x, some xs => some (x :: xs)
    | _, _ => none

/-- Result of one `next()` call: a panic (a failed `unwrap`), the end of the
iteration (`None`), or an emitted permutation together with the updated
permutator. -/
inductive NextRes (T : Type) where
  | panic : NextRes T
  | exhausted : NextRes T
  | emit : List T → TreePermutator T → NextRes T

/-- `Iterator::next` for `TreePermutator`: emit the first permutation on the
first call; afterwards locate the deepest position with a non-empty
`remaining` stack, pop its next element `e` into the state, rebuild the pool
of unused indices from the old `state[change_pos..]` minus `e`, sort it
descending and distribute it over the deeper positions; emit the
`data`-image of the new state.  Every `unwrap` of the source is modelled as
a potential `panic`. -/
def TreePermutator.next (s : TreePermutator T) : NextRes T :=
  if s.started = false then
    match getAll s.data s.state with
    | none => .panic
    | some out => .emit out { s with started := true }
  else
    match lastNonempty s.remaining with
    | none => .exhausted
    | some c =>
      let working := s.state.drop c
      match s.remaining[c]? with
      | none => .panic
      | some remc =>
        match remc.getLast? with
        | none => .panic
        | some e =>
          if e ∈ working then
            match refillLoop (s.state.set c e) (s.remaining.set c remc.dropLast)
                (sortDesc (working.erase e)) (c + 1) (s.len - (c + 1)) with
            | none => .panic
            | some (st', rem') =>
              match getAll s.data st' with
              | none => .panic
              | some out => .emit out { s with state := st', remaining := rem' }
          else .panic

/-- Collect up to `fuel` emitted index sequences (the emitted index sequence
of a call is the state after the call); exhaustion or a panic ends the
collection. -/
def runIdx : Nat → TreePermutator T → List (List Nat)
  | 0, _ => []
  | fuel + 1, s =>
    match s.next with
    | .emit _ s' => s'.state :: runIdx fuel s'
    | _ => []

/-- Collect up to `fuel` emitted permutations of the data. -/
def runOut : Nat → TreePermutator T → List (List T)
  | 0, _ => []
  | fuel + 1, s =>
    match s.next with
    | .emit out s' => out :: runOut fuel s'
    | _ => []

/-- One external call to the permutator. -/
inductive PermOp where
  | callNext : PermOp
  | callFailPos : Nat → PermOp

/-- Whether an operation is a `fail_pos` call with position at least `n`. -/
def PermOp.posInBounds (n : Nat) : PermOp → Prop
  | .callNext => True
  | .callFailPos p => p < n

/-- Run a sequence of calls against the permutator; `none` as soon as any
call panics (a `next` that returns `None` leaves the permutator
unchanged). -/
def runOps : List PermOp → TreePermutator T → Option (TreePermutator T)
  | [], s => some s
  | .callNext :: ops, s =>
    match s.next with
    | .panic => none
    | .exhausted => runOps ops s
    | .emit _ s' => runOps ops s'
  | .callFailPos p :: ops, s => runOps ops (s.failPos p)

/-- Strict lexicographic order on index sequences. -/
def lexLt : List Nat → List Nat → Bool
  | _, [] => false
  | [], _ :: _ => true
  | a :: as, b :: bs => if a < b then true else if b < a then false else lexLt as bs

/-- The fully stocked `remaining` stack of position `i`: every index that
occurs in `st` strictly after position `i` and is larger than `st[i]`, in
descending order. -/
def canonicalRem (st : List Nat) (i : Nat) : List Nat :=
  sortDesc ((st.drop (i + 1)).filter (fun x => decide (st.getD i 0 < x)))

/-- Structural invariant of every reachable permutator: lengths agree, the
state is a permutation of `0 … len-1`, and every `remaining` stack is either
fully stocked or cleared (`fail_pos` only ever clears whole stacks, and
`next` restocks every stack it touches). -/
structure PermInv (s : TreePermutator T) : Prop where
  hdata : s.data.length = s.len
  hstate : s.state.length = s.len
  hrem : s.remaining.length = s.len
  hperm : s.state.Perm (List.range s.len)
  hfe : ∀ i, i < s.len →
    s.remaining.getD i [] = canonicalRem s.state i ∨ s.remaining.getD i [] = []

/-- A permutator whose every `remaining` stack is fully stocked (the states
reached by `new` and `next` alone, without pruning). -/
structure PermFull (s : TreePermutator T) extends PermInv s : Prop where
  hfull : ∀ i, i < s.len → s.remaining.getD i [] = canonicalRem s.state i

/-- Number of permutations of `0 … n-1` lexicographically above `st`. -/
def countAbove (st : List Nat) (n : Nat) : Nat :=
  ((List.range n).permutations.filter (fun t => lexLt st t)).length

/-- Overwrite `l` from position `pos` on with the elements of `src` (the
iterated `l[pos + k] = src[k]` writes performed by the refill loop). -/
def overwriteFrom : List α → Nat → List α → List α
  | l, _, [] => l
  | l, pos, x :: xs => overwriteFrom (l.set pos x) (pos + 1) xs

/-- The successive popped pools the refill loop stores:
`[pool.dropLast, pool.dropLast.dropLast, …, []]`. -/
def descTails (pool : List Nat) : List (List Nat) :=
  (List.range pool.length).map (fun i => pool.take (pool.length - (i + 1)))

/-! ## Theorems: the option prober (claims C1, C2) -/

theorem getNextOptionLoop_eq_find (behavior : Nat → List ModOutcome) :
    ∀ pairs : List (Nat × Nat),
      getNextOptionLoop behavior pairs =
        match pairs.find? (fun pr =>
            (probeGroup (behavior pr.2)).modOk ||
            (probeGroup (behavior pr.2)).errorNodes.isSome) with
        | some pr =>
          if (probeGroup (behavior pr.2)).modOk then .ok pr.1
          else .error ((probeGroup (behavior pr.2)).errorNodes.getD [])
        | none => .error []
  | [] => rfl
  | (gp, gi) :: rest => by
    by_cases hm : (probeGroup (behavior gi)).modOk
    · rw [List.find?_cons_of_pos _ (by simp [hm])]
      simp [getNextOptionLoop, hm]
    · cases he : (probeGroup (behavior gi)).errorNodes with
      | some ns =>
        rw [List.find?_cons_of_pos _ (by simp [he])]
        simp [getNextOptionLoop, hm, he]
      | none =>
        rw [List.find?_cons_of_neg _ (by simp [hm, he])]
        simpa [getNextOptionLoop, hm, he] using
          getNextOptionLoop_eq_find behavior rest

/-- C1.  Counterexample to the claim: with the first candidate failing its
policy check while capturing black-hole router `7` and the second candidate
applying cleanly, `get_next_option` returns the failure `Err [7]` at once
instead of the success at position `1` that the claim - scan all candidates,
return the first success - prescribes. -/
theorem C1_counterexample :
    getNextOption c1behavior [0, 1] 0 = .error [7]
    ∧ proberClaim c1behavior [0, 1] 0 = .ok 1
    ∧ getNextOption c1behavior [0, 1] 0 ≠ proberClaim c1behavior [0, 1] 0 := by
  refine ⟨rfl, rfl, ?_⟩
  intro h
  rw [show getNextOption c1behavior [0, 1] 0 = .error [7] from rfl,
    show proberClaim c1behavior [0, 1] 0 = .ok 1 from rfl] at h
  exact Except.noConfusion h

/-- C1 (amended).  `get_next_option` scans the candidates at positions
`p ≥ frame.idx` in order up to the first decisive one: a group that applies
cleanly with all policies holding (its position is returned), or a failing
probe that captured a black-hole router set (returned as failure at once,
without trying the remaining candidates); `Err []` is returned only when
every candidate fails and no failing probe captured black-hole routers. -/
theorem C1_prober_first_decisive (behavior : Nat → List ModOutcome)
    (remGroups : List Nat) (idx : Nat) :
    getNextOption behavior remGroups idx = proberAmended behavior remGroups idx :=
  getNextOptionLoop_eq_find behavior _

theorem applyGroupLoop_numUndo (outs : List ModOutcome) :
    ∀ nu nup eni, (applyGroupLoop outs nu nup eni).numUndo = nu + attemptedApplies outs := by
  induction outs with
  | nil => intro nu nup eni; rfl
  | cons o os ih =>
    intro nu nup eni
    obtain ⟨a, st, ch⟩ := o
    cases a <;> cases ch <;>
      simp [applyGroupLoop, attemptedApplies, ih] <;> omega

theorem applyGroupLoop_numUndoPolicy (outs : List ModOutcome) :
    ∀ nu nup eni,
      (applyGroupLoop outs nu nup eni).numUndoPolicy = nup + successfulApplies outs := by
  induction outs with
  | nil => intro nu nup eni; rfl
  | cons o os ih =>
    intro nu nup eni
    obtain ⟨a, st, ch⟩ := o
    cases a <;> cases ch <;>
      simp [applyGroupLoop, successfulApplies, ih] <;> omega

theorem attemptedApplies_eq (outs : List ModOutcome) :
    attemptedApplies outs =
      successfulApplies outs + (if rejectedApply outs then 1 else 0) := by
  induction outs with
  | nil => rfl
  | cons o os ih =>
    obtain ⟨a, st, ch⟩ := o
    cases a <;> cases ch <;>
      simp [attemptedApplies, successfulApplies, rejectedApply, ih] <;> omega

/-- C2.  Counterexample to the claim: in a probe whose second modifier is
rejected by the simulator after `k = 1` successful apply, the loop has
`num_undo = 2` - one undo per *attempted* apply, including the rejected
one - where the claim prescribes exactly `k = 1` simulator undos. -/
theorem C2_counterexample :
    (probeGroup [⟨true, .ok, true⟩, ⟨false, .ok, true⟩]).modOk = false
    ∧ successfulApplies [⟨true, .ok, true⟩, ⟨false, .ok, true⟩] = 1
    ∧ (probeGroup [⟨true, .ok, true⟩, ⟨false, .ok, true⟩]).numUndo = 2
    ∧ (probeGroup [⟨true, .ok, true⟩, ⟨false, .ok, true⟩]).numUndo ≠
        successfulApplies [⟨true, .ok, true⟩, ⟨false, .ok, true⟩] := by
  refine ⟨rfl, rfl, rfl, ?_⟩
  decide

/-- C2 (amended).  A probe undoes one policy step per successful apply and
one simulator step per *attempted* apply: `num_undo_policy` equals the
number of successful applies, and `num_undo` exceeds it by exactly one when
the probe ended on a simulator rejection (the code convention being that a
rejected `apply_modifier` also consumed one undo record).  Under that
convention, popping `num_undo` (resp. `num_undo_policy`) records restores
the pre-probe stacks exactly. -/
theorem C2_undo_counts (outs : List ModOutcome) (pre : List Nat) :
    (probeGroup outs).numUndo = attemptedApplies outs
    ∧ (probeGroup outs).numUndoPolicy = successfulApplies outs
    ∧ (probeGroup outs).numUndo =
        (probeGroup outs).numUndoPolicy + (if rejectedApply outs then 1 else 0)
    ∧ popRecords (probeGroup outs).numUndo (pushRecords (attemptedApplies outs) pre) = pre
    ∧ popRecords (probeGroup outs).numUndoPolicy
        (pushRecords (successfulApplies outs) pre) = pre := by
  have h1 : (probeGroup outs).numUndo = attemptedApplies outs := by
    simpa using applyGroupLoop_numUndo outs 0 0 none
  have h2 : (probeGroup outs).numUndoPolicy = successfulApplies outs := by
    simpa using applyGroupLoop_numUndoPolicy outs 0 0 none
  refine ⟨h1, h2, ?_, ?_, ?_⟩
  · rw [h1, h2, attemptedApplies_eq]
  · rw [h1]
    simp [popRecords, pushRecords]
  · rw [h2]
    simp [popRecords, pushRecords]

/-! ## Theorems: the cumulative LTL formula (claim C4) -/

set_option maxRecDepth 8192 in
/-- C4.  Counterexample to the claim: for a pool of `n = 3` input
modifications the code still builds the frame constraints over the six
propositions `x0 … x5`, not over `x0 … x2` as the claim prescribes. -/
theorem C4_counterexample : alwaysFormulaParts 3 ≠ claimAlwaysParts 3 := by
  decide

set_option maxRecDepth 8192 in
/-- C4 (amended).  The cumulative formula starts as the conjunct `True`, and
the frame constraints conjoined to every query are, for every pool size `n`,
the ones the claim describes for exactly six modifications: the conjunction
of `G(xi -> ⋀ j ≠ i, ¬xj)` and of `F xi` for `i` in `0..6`, over the fixed
propositions `x0 … x5`. -/
theorem C4_formula_fixed_six (n : Nat) :
    initialAaltaInput = "True" ∧ alwaysFormulaParts n = claimAlwaysParts 6 := by
  constructor
  · rfl
  · show alwaysFormulaParts 0 = claimAlwaysParts 6
    decide

/-! ## Theorems: strategy construction (claim C5) -/

/-- C5.  Counterexample to the claim: when the initial hard-policy violation
is reported through a `step` error (here the forwarding-black-hole kind),
`StrategyTRTA::new` propagates that error through the `?` operator and does
not surface `Error::InvalidInitialState`. -/
theorem C5_counterexample :
    initialViolation (.blackHole [3]) false
    ∧ strategyNew [0] (.blackHole [3]) false ≠ .error .invalidInitialState
    ∧ strategyNew [0] (.blackHole [3]) false =
        .error (.propagated (.blackHole [3])) := by
  refine ⟨Or.inl (by decide), ?_, rfl⟩
  simp [strategyNew]

/-- C5 (amended).  Construction fails with `invalid-initial-state` exactly
when the initial `step` succeeds and `check()` is false; an initial
violation reported through a `step` error is still rejected before any
modification is applied, but as the propagated step error; construction
succeeds - with the singleton groups of the modifiers - exactly when the
initial step passes and the initial policies hold. -/
theorem C5_initial_state_check (modifiers : List Nat) (initStep : StepOutcome)
    (initCheck : Bool) :
    (strategyNew modifiers initStep initCheck = .error .invalidInitialState ↔
      initStep = .ok ∧ initCheck = false)
    ∧ ((∃ gs, strategyNew modifiers initStep initCheck = .ok gs) ↔
      initStep = .ok ∧ initCheck = true)
    ∧ (initialViolation initStep initCheck →
      ∃ e, strategyNew modifiers initStep initCheck = .error e)
    ∧ strategyNew modifiers .ok true = .ok (modifiers.map (fun m => [m])) := by
  cases initStep <;> cases initCheck <;>
    simp [strategyNew, initialViolation]

/-- C5, witness for the hypothesis-bearing part: a violating initial state
(step error) still makes construction fail. -/
theorem C5_initial_state_check_witness :
    ∃ e, strategyNew [0] .otherErr true = .error e :=
  (C5_initial_state_check [0] .otherErr true).2.2.1 (Or.inl (by decide))

/-! ## Theorems: driver stuck handling and frame construction (claims C3, C9) -/

/-- C3.  Counterexample to the claim: on a failed probe the driver's stack
action is `Reset` - here with nothing extracted (the unsat case), the stack
becomes a single fresh root frame, the sequence is cleared and the net and
policy are restored to depth `0` - which differs from popping the current
stack frame (that would leave depth `4` and a sequence entry). -/
theorem C3_counterexample :
    stuckTransition 2 id []
        ⟨[⟨1, [0], 1⟩, ⟨0, [0, 1], 0⟩], [1, 0], 5, 5⟩ =
      ⟨[⟨0, [0, 1], 0⟩], [], 0, 0⟩
    ∧ claimPopOnce ⟨[⟨1, [0], 1⟩, ⟨0, [0, 1], 0⟩], [1, 0], 5, 5⟩ =
      ⟨[⟨0, [0, 1], 0⟩], [1], 4, 4⟩
    ∧ popTransition ⟨[⟨1, [0], 1⟩, ⟨0, [0, 1], 0⟩], [1, 0], 5, 5⟩ =
      ⟨[⟨0, [0, 1], 0⟩], [1], 4, 4⟩
    ∧ stuckTransition 2 id [] ⟨[⟨1, [0], 1⟩, ⟨0, [0, 1], 0⟩], [1, 0], 5, 5⟩ ≠
      claimPopOnce ⟨[⟨1, [0], 1⟩, ⟨0, [0, 1], 0⟩], [1, 0], 5, 5⟩
    ∧ stuckTransition 2 id [] ⟨[⟨1, [0], 1⟩, ⟨0, [0, 1], 0⟩], [1, 0], 5, 5⟩ ≠
      popTransition ⟨[⟨1, [0], 1⟩, ⟨0, [0, 1], 0⟩], [1, 0], 5, 5⟩ := by
  refine ⟨rfl, rfl, ?_, ?_, ?_⟩ <;> decide

/-- C3 (amended).  Whenever the oracle's reported status is not `sat`, no
index sequence is extracted, and the driver handles the stuck point with a
full reset - the stack is discarded and replaced by one fresh shuffled root
frame over all pool indices, `current_sequence` is cleared and the simulator
and policy are restored to clones of their initial states - with no extra
frame pushed; the current frame is not popped. -/
theorem C3_unsat_resets :
    (∀ output : List Char, statusSat output = false → extractIndices output = [])
    ∧ ∀ (nGroups : Nat) (shuffle : List Nat → List Nat) (ds : DriverState),
        stuckTransition nGroups shuffle [] ds = resetSpec nGroups shuffle := by
  constructor
  · intro output hs
    unfold statusSat at hs
    unfold extractIndices
    rcases hl : rustLines output with _ | ⟨hd, tl⟩
    · simp
    · rcases tl with _ | ⟨st, tr⟩
      · simp
      · rw [hl] at hs
        have hs' : ¬ trimChars st = ['s', 'a', 't'] := of_decide_eq_false hs
        simp [hs']
  · intro nGroups shuffle ds
    rfl

/-- C3, witness: a concrete unsat answer extracts nothing and the stuck
handler performs the reset. -/
theorem C3_unsat_resets_witness :
    extractIndices ("header\nunsat\nx1".toList) = []
    ∧ stuckTransition 2 id [] ⟨[⟨1, [0], 1⟩], [0], 3, 3⟩ = resetSpec 2 id :=
  ⟨C3_unsat_resets.1 _ (by decide), C3_unsat_resets.2 2 id _⟩

/-- C9.  Counterexample to the claim: the child frame pushed after a
successful probe is built by filtering the parent's `rem_groups` in place,
without consulting the random source; from the parent candidates
`[1, 0, 2]` with group `1` chosen it always yields `[0, 2]`, so the
reordering `[2, 0]` - a permutation of the same candidates, which a
uniformly random shuffle must be able to produce - can never occur. -/
theorem C9_counterexample :
    childFrame ⟨0, [1, 0, 2], 1⟩ 1 2 = ⟨2, [0, 2], 0⟩
    ∧ List.Perm [2, 0] [0, 2]
    ∧ (childFrame ⟨0, [1, 0, 2], 1⟩ 1 2).remGroups ≠ [2, 0] := by
  refine ⟨rfl, ?_, ?_⟩ <;> decide

/-- C9 (amended).  Only root frames (the initial one and the one pushed by a
reset) are built by `StackFrame::new`, which materializes the candidate
iterator and shuffles it, with `num_undo = 0`; the child frame pushed after
a successful probe instead keeps the parent's candidate order with the
chosen group index removed (no shuffle, no random source), with `idx = 0`
and `num_undo` the length of the chosen group. -/
theorem C9_frame_construction (parent : StackFrame) (g len : Nat) :
    (childFrame parent g len).numUndo = len
    ∧ (childFrame parent g len).idx = 0
    ∧ (childFrame parent g len).remGroups.Sublist parent.remGroups
    ∧ g ∉ (childFrame parent g len).remGroups
    ∧ (∀ x, x ≠ g → (childFrame parent g len).remGroups.count x =
        parent.remGroups.count x)
    ∧ ∀ (options : List Nat) (numUndo : Nat) (shuffle : List Nat → List Nat),
        StackFrame.new options numUndo shuffle = ⟨numUndo, shuffle options, 0⟩ := by
  refine ⟨rfl, rfl, List.filter_sublist _, ?_, ?_, fun _ _ _ => rfl⟩
  · simp [childFrame]
  · intro x hx
    simp only [childFrame]
    rw [List.count_filter]
    simp [hx]

/-- C9, witness: the hypothesis-bearing count conjunct at a concrete
frame. -/
theorem C9_frame_construction_witness :
    (childFrame ⟨0, [1, 0, 2], 1⟩ 1 2).remGroups.count 2 =
      List.count 2 [1, 0, 2] :=
  (C9_frame_construction ⟨0, [1, 0, 2], 1⟩ 1 2).2.2.2.2.1 2 (by decide)

/-! ## Theorems: oracle answer parsing (claim C8) -/

theorem extract_inner_foldl (parts : List (List Char)) :
    ∀ acc : List Nat,
      parts.foldl (fun acc part =>
        match tokenIndex part with
        | some i => acc ++ [i]
        | none => acc) acc = acc ++ parts.filterMap tokenIndex := by
  induction parts with
  | nil => intro acc; simp
  | cons p ps ih =>
    intro acc
    cases h : tokenIndex p <;>
      simp [h, ih, List.filterMap_cons]

theorem extract_outer_foldl (ls : List (List Char)) :
    ∀ acc : List Nat,
      ls.foldl (fun acc line =>
        (splitOnChar ',' line).foldl (fun acc part =>
          match tokenIndex part with
          | some i => acc ++ [i]
          | none => acc) acc) acc =
      acc ++ (ls.map (fun line => (splitOnChar ',' line).filterMap tokenIndex)).flatten := by
  induction ls with
  | nil => intro acc; simp
  | cons l ls ih =>
    intro acc
    rw [List.foldl_cons, extract_inner_foldl, ih]
    simp

theorem tokenIndex_eq_claim (part : List Char) : tokenIndex part = claimTokenIndex part := by
  unfold tokenIndex claimTokenIndex
  by_cases hb : (trimChars part).take 1 = ['!']
  · have hx : ¬ (trimChars part).take 1 = ['x'] := by simp [hb]
    have hp : ¬ (trimChars part).take 2 = ['(', 'x'] := by
      intro h
      have h1 : (trimChars part).take 1 = ['('] := by
        have h2 := congrArg (List.take 1) h
        simpa [List.take_take] using h2
      rw [hb] at h1
      exact absurd h1 (by decide)
    simp [hb, hx, hp]
  · by_cases hp : (trimChars part).take 2 = ['(', 'x']
    · have hx : ¬ (trimChars part).take 1 = ['x'] := by
        intro h
        have h1 : (trimChars part).take 1 = ['('] := by
          have h2 := congrArg (List.take 1) hp
          simpa [List.take_take] using h2
        rw [h] at h1
        exact absurd h1 (by decide)
      simp [hb, hp, hx]
    · simp [hb, hp]

/-- C8.  Exactly when the reported status line trims to `sat` does the code
extract anything, and what it extracts is precisely the ordered sequence of
the indices of the positively-asserted proposition tokens (`xN` or `(xN`;
tokens beginning with `!` contribute nothing) over the trace lines; when the
status is not `sat` the extracted sequence is empty. -/
theorem C8_extraction (output : List Char) :
    extractIndices output = claimExtract output
    ∧ (statusSat output = false → extractIndices output = []) := by
  have hfun : tokenIndex = claimTokenIndex := funext tokenIndex_eq_claim
  constructor
  · unfold extractIndices claimExtract
    rcases hl : rustLines output with _ | ⟨hd, _ | ⟨st, tr⟩⟩
    · simp
    · simp
    · by_cases hs : trimChars st = ['s', 'a', 't']
      · simp only [hs, List.length_cons, if_true]
        rw [dif_pos (by omega)]
        rw [if_pos (by simpa using hs)]
        simp only [List.drop_succ_cons, List.drop_zero]
        rw [extract_outer_foldl]
        rw [hfun]
        simp
      · rw [dif_pos (by simp)]
        rw [if_neg (by simpa using hs)]
        simp [hs]
  · intro hnot
    unfold statusSat at hnot
    unfold extractIndices
    rcases hl : rustLines output with _ | ⟨hd, _ | ⟨st, tr⟩⟩
    · simp
    · simp
    · rw [hl] at hnot
      have hs' : ¬ trimChars st = ['s', 'a', 't'] := of_decide_eq_false hnot
      simp [hs']

/-! ## Theorems: order and sorting groundwork for the tree permutator -/

theorem sortDesc_perm (l : List Nat) : (sortDesc l).Perm l :=
  List.perm_insertionSort _ l

theorem sortDesc_sorted (l : List Nat) : (sortDesc l).Sorted (fun a b => a ≥ b) :=
  List.sorted_insertionSort _ l

theorem sortDesc_congr {u v : List Nat} (h : u.Perm v) : sortDesc u = sortDesc v :=
  List.eq_of_perm_of_sorted ((sortDesc_perm u).trans (h.trans (sortDesc_perm v).symm))
    (sortDesc_sorted u) (sortDesc_sorted v)

theorem sortDesc_eq_self {l : List Nat} (h : l.Sorted (fun a b => a ≥ b)) :
    sortDesc l = l :=
  List.eq_of_perm_of_sorted (sortDesc_perm l) (sortDesc_sorted l) h

theorem sorted_gt_of_ge_nodup {l : List Nat} (hs : l.Sorted (fun a b => a ≥ b))
    (hn : l.Nodup) : l.Sorted (fun a b => a > b) := by
  have h := hs.and hn
  exact h.imp (fun hab => lt_of_le_of_ne hab.1 (fun hba => hab.2 hba.symm))

theorem sortDesc_sorted_gt {l : List Nat} (hn : l.Nodup) :
    (sortDesc l).Sorted (fun a b => a > b) :=
  sorted_gt_of_ge_nodup (sortDesc_sorted l) ((sortDesc_perm l).nodup_iff.mpr hn)

theorem lexLt_irrefl : ∀ l : List Nat, lexLt l l = false
  | [] => rfl
  | a :: as => by simp [lexLt, lexLt_irrefl as]

theorem lexLt_trans : ∀ (a b c : List Nat),
    lexLt a b = true → lexLt b c = true → lexLt a c = true := by
  intro a
  induction a with
  | nil =>
    intro b c hab hbc
    cases c with
    | nil => cases b <;> simp [lexLt] at hab hbc
    | cons z zs => simp [lexLt]
  | cons x xs ih =>
    intro b c hab hbc
    cases b with
    | nil => simp [lexLt] at hab
    | cons y ys =>
      cases c with
      | nil => simp [lexLt] at hbc
      | cons z zs =>
        simp only [lexLt] at hab hbc ⊢
        rcases lt_trichotomy x y with h1 | h1 | h1
        · rcases lt_trichotomy y z with h2 | h2 | h2
          · simp [h1.trans h2]
          · subst h2; simp [h1]
          · simp [h2, lt_asymm h2] at hbc
        · subst h1
          simp [lt_irrefl] at hab
          rcases lt_trichotomy x z with h2 | h2 | h2
          · simp [h2]
          · subst h2
            simp [lt_irrefl] at hbc ⊢
            exact ih ys zs hab hbc
          · simp [h2, lt_asymm h2] at hbc
        · simp [h1, lt_asymm h1] at hab

theorem lexLt_trichotomy : ∀ (a b : List Nat),
    lexLt a b = true ∨ a = b ∨ lexLt b a = true := by
  intro a
  induction a with
  | nil =>
    intro b
    cases b with
    | nil => exact Or.inr (Or.inl rfl)
    | cons y ys => exact Or.inl (by simp [lexLt])
  | cons x xs ih =>
    intro b
    cases b with
    | nil => exact Or.inr (Or.inr (by simp [lexLt]))
    | cons y ys =>
      rcases lt_trichotomy x y with h1 | h1 | h1
      · exact Or.inl (by simp [lexLt, h1])
      · subst h1
        rcases ih ys with h2 | h2 | h2
        · exact Or.inl (by simp [lexLt, h2])
        · exact Or.inr (Or.inl (by rw [h2]))
        · exact Or.inr (Or.inr (by simp [lexLt, h2]))
      · exact Or.inr (Or.inr (by simp [lexLt, h1]))

theorem lexLt_asymm {a b : List Nat} (h : lexLt a b = true) : lexLt b a = false := by
  by_contra h'
  have h2 : lexLt b a = true := by
    cases h3 : lexLt b a
    · exact absurd h3 h'
    · rfl
  have := lexLt_trans a b a h h2
  rw [lexLt_irrefl] at this
  exact Bool.noConfusion this

theorem lexLt_ne {a b : List Nat} (h : lexLt a b = true) : a ≠ b := by
  intro he
  subst he
  rw [lexLt_irrefl] at h
  exact Bool.noConfusion h

theorem lexLt_append_left : ∀ (p u v : List Nat), lexLt (p ++ u) (p ++ v) = lexLt u v := by
  intro p
  induction p with
  | nil => intro u v; rfl
  | cons x xs ih => intro u v; simp [lexLt, ih]

theorem lexLt_of_take_eq_lt : ∀ (i : Nat) (u v : List Nat),
    u.take i = v.take i → i < u.length → i < v.length →
    u.getD i 0 < v.getD i 0 → lexLt u v = true := by
  intro i
  induction i with
  | zero =>
    intro u v _ hu hv hlt
    cases u with
    | nil => simp at hu
    | cons x xs =>
      cases v with
      | nil => simp at hv
      | cons y ys =>
        simp only [List.getD_cons_zero] at hlt
        simp [lexLt, hlt]
  | succ i ih =>
    intro u v ht hu hv hlt
    cases u with
    | nil => simp at hu
    | cons x xs =>
      cases v with
      | nil => simp at hv
      | cons y ys =>
        simp only [List.take_succ_cons, List.cons.injEq] at ht
        obtain ⟨hxy, ht'⟩ := ht
        subst hxy
        simp only [List.getD_cons_succ] at hlt
        simp only [List.length_cons, Nat.succ_lt_succ_iff] at hu hv
        simp [lexLt, ih xs ys ht' hu hv hlt]

theorem lexLt_exists_of_lt : ∀ (u v : List Nat),
    lexLt u v = true → u.length = v.length →
    ∃ i, i < u.length ∧ u.take i = v.take i ∧ u.getD i 0 < v.getD i 0 := by
  intro u
  induction u with
  | nil =>
    intro v h hl
    cases v with
    | nil => simp [lexLt] at h
    | cons y ys => simp at hl
  | cons x xs ih =>
    intro v h hl
    cases v with
    | nil => simp at hl
    | cons y ys =>
      simp only [lexLt] at h
      rcases lt_trichotomy x y with h1 | h1 | h1
      · exact ⟨0, by simp, by simp, by simpa using h1⟩
      · subst h1
        simp only [lt_irrefl, if_false] at h
        simp only [List.length_cons, Nat.succ.injEq] at hl
        obtain ⟨i, hi, ht, hd⟩ := ih ys h hl
        exact ⟨i + 1, by simpa using hi, by simp [ht], by simpa using hd⟩
      · simp [h1, lt_asymm h1] at h

theorem lexLt_take_mono : ∀ (m : Nat) (u v : List Nat), lexLt u v = true →
    lexLt (u.take m) (v.take m) = true ∨ u.take m = v.take m := by
  intro m
  induction m with
  | zero => intro u v _; exact Or.inr (by simp)
  | succ m ih =>
    intro u v h
    cases u with
    | nil =>
      cases v with
      | nil => simp [lexLt] at h
      | cons y ys => exact Or.inl (by simp [lexLt])
    | cons x xs =>
      cases v with
      | nil => simp [lexLt] at h
      | cons y ys =>
        simp only [lexLt] at h
        rcases lt_trichotomy x y with h1 | h1 | h1
        · exact Or.inl (by simp [lexLt, h1])
        · subst h1
          simp only [lt_irrefl, if_false] at h
          rcases ih xs ys h with h2 | h2
          · exact Or.inl (by simp [lexLt, h2])
          · exact Or.inr (by simp [h2])
        · simp [h1, lt_asymm h1] at h

theorem sorted_lt_lex_min : ∀ {u : List Nat}, u.Sorted (fun a b => a < b) →
    ∀ {v : List Nat}, v.Perm u → v = u ∨ lexLt u v = true := by
  intro u
  induction u with
  | nil =>
    intro _ v hv
    exact Or.inl hv.eq_nil
  | cons x u' ih =>
    intro hs v hv
    cases v with
    | nil => exact absurd hv.symm.eq_nil (by simp)
    | cons y v' =>
      have hy : y ∈ x :: u' := hv.subset (by simp)
      have hmin : ∀ b ∈ u', x < b := List.rel_of_sorted_cons hs
      rcases List.mem_cons.mp hy with hyx | hyu
      · subst hyx
        rcases ih (List.sorted_cons.mp hs).2 (hv.cons_inv) with h2 | h2
        · exact Or.inl (by rw [h2])
        · exact Or.inr (by simp [lexLt, h2])
      · exact Or.inr (by simp [lexLt, hmin y hyu])

theorem sorted_gt_lex_max : ∀ {u : List Nat}, u.Sorted (fun a b => a > b) →
    ∀ {v : List Nat}, v.Perm u → v = u ∨ lexLt v u = true := by
  intro u
  induction u with
  | nil =>
    intro _ v hv
    exact Or.inl hv.eq_nil
  | cons x u' ih =>
    intro hs v hv
    cases v with
    | nil => exact absurd hv.symm.eq_nil (by simp)
    | cons y v' =>
      have hy : y ∈ x :: u' := hv.subset (by simp)
      have hmax : ∀ b ∈ u', b < x := List.rel_of_sorted_cons hs
      rcases List.mem_cons.mp hy with hyx | hyu
      · subst hyx
        rcases ih (List.sorted_cons.mp hs).2 (hv.cons_inv) with h2 | h2
        · exact Or.inl (by rw [h2])
        · exact Or.inr (by simp [lexLt, h2])
      · exact Or.inr (by simp [lexLt, hmax y hyu])

/-! ## Theorems: the refill loop and the deepest-position search -/

theorem overwriteFrom_eq_append : ∀ (src l : List α) (pos : Nat),
    pos + src.length ≤ l.length →
    overwriteFrom l pos src = l.take pos ++ src ++ l.drop (pos + src.length) := by
  intro src
  induction src with
  | nil =>
    intro l pos h
    simp only [overwriteFrom, List.length_nil, Nat.add_zero, List.nil_append,
      List.append_nil]
    rw [List.take_append_drop]
  | cons x xs ih =>
    intro l pos h
    have hpos : pos < l.length := by
      simp only [List.length_cons] at h
      omega
    simp only [overwriteFrom]
    rw [ih _ _ (by simp [List.length_set]; simp only [List.length_cons] at h; omega)]
    rw [List.set_eq_take_cons_drop x hpos]
    have hlt : (l.take pos).length = pos := by
      rw [List.length_take]
      omega
    rw [List.take_append_eq_append_take, List.drop_append_eq_append_drop]
    have hA : (List.take pos l).length ≤ pos + 1 := by rw [hlt]; omega
    have hB : (List.take pos l).length ≤ pos + 1 + xs.length := by rw [hlt]; omega
    rw [List.take_all_of_le hA, List.drop_eq_nil_of_le hB]
    rw [hlt]
    have h1 : pos + 1 - pos = 1 := by omega
    have h2 : pos + 1 + xs.length - pos = 1 + xs.length := by omega
    rw [h1, h2]
    have h3 : (1 + xs.length) = xs.length + 1 := by omega
    rw [h3]
    simp only [List.drop_succ_cons]
    rw [List.drop_drop]
    have hone : List.take 1 (x :: List.drop (pos + 1) l) = [x] := rfl
    rw [hone]
    have hidx : pos + 1 + xs.length = pos + (x :: xs).length := by
      simp only [List.length_cons]
      omega
    rw [hidx]
    simp

theorem descTails_length (pool : List Nat) : (descTails pool).length = pool.length := by
  simp [descTails]

theorem descTails_nil : descTails [] = [] := rfl

theorem descTails_step (pool : List Nat) (h : pool ≠ []) :
    descTails pool = pool.dropLast :: descTails pool.dropLast := by
  obtain ⟨k, hk⟩ : ∃ k, pool.length = k + 1 := by
    cases pool with
    | nil => exact absurd rfl h
    | cons a as => exact ⟨as.length, by simp⟩
  have hdl : pool.dropLast.length = k := by
    rw [List.length_dropLast, hk]
    omega
  simp only [descTails, hk, hdl]
  rw [List.range_succ_eq_map]
  simp only [List.map_cons, List.map_map]
  congr 1
  · rw [List.dropLast_eq_take, hk]
  · apply List.map_congr_left
    intro i hi
    simp only [Function.comp_apply]
    rw [List.dropLast_eq_take, hk]
    rw [List.take_take]
    congr 1
    simp only [List.mem_range] at hi
    omega

theorem refillLoop_eq : ∀ (k : Nat) (pool st : List Nat) (rem : List (List Nat))
    (pos : Nat), pool.length = k →
    refillLoop st rem pool pos k =
      some (overwriteFrom st pos pool.reverse, overwriteFrom rem pos (descTails pool)) := by
  intro k
  induction k with
  | zero =>
    intro pool st rem pos h
    have hp : pool = [] := List.length_eq_zero.mp h
    subst hp
    rfl
  | succ k ih =>
    intro pool st rem pos h
    have hne : pool ≠ [] := by
      intro he
      rw [he] at h
      simp at h
    have hsplit : pool.dropLast ++ [pool.getLast hne] = pool :=
      List.dropLast_append_getLast hne
    have hlast : pool.getLast? = some (pool.getLast hne) :=
      List.getLast?_eq_getLast pool hne
    have hdl : pool.dropLast.length = k := by
      rw [List.length_dropLast, h]
      omega
    simp only [refillLoop, hlast]
    rw [ih _ _ _ _ hdl]
    have hrev : pool.reverse = pool.getLast hne :: pool.dropLast.reverse := by
      conv_lhs => rw [← hsplit]
      rw [List.reverse_append]
      simp
    rw [hrev, descTails_step _ hne]
    simp only [overwriteFrom]

theorem lastNonempty_none : ∀ {rs : List (List Nat)}, lastNonempty rs = none →
    ∀ r ∈ rs, r = [] := by
  intro rs
  induction rs with
  | nil => intro _ r hr; simp at hr
  | cons a as ih =>
    intro h r hr
    simp only [lastNonempty] at h
    cases h2 : lastNonempty as with
    | some i => rw [h2] at h; exact Option.noConfusion h
    | none =>
      rw [h2] at h
      by_cases ha : a.isEmpty
      · rcases List.mem_cons.mp hr with h3 | h3
        · subst h3
          exact List.isEmpty_iff.mp ha
        · exact ih h2 r h3
      · rw [if_neg ha] at h
        exact Option.noConfusion h

theorem lastNonempty_some : ∀ {rs : List (List Nat)} {c : Nat},
    lastNonempty rs = some c →
    c < rs.length ∧ rs.getD c [] ≠ [] ∧
      ∀ j, c < j → j < rs.length → rs.getD j [] = [] := by
  intro rs
  induction rs with
  | nil => intro c h; exact Option.noConfusion h
  | cons a as ih =>
    intro c h
    simp only [lastNonempty] at h
    cases h2 : lastNonempty as with
    | some i =>
      rw [h2] at h
      have hc : c = i + 1 := by
        cases h
        rfl
      subst hc
      obtain ⟨hb, hne, hemp⟩ := ih h2
      refine ⟨by simpa using hb, by simpa using hne, ?_⟩
      intro j hj hjl
      cases j with
      | zero => omega
      | succ j' =>
        simp only [List.getD_cons_succ]
        exact hemp j' (by omega) (by simpa using hjl)
    | none =>
      rw [h2] at h
      by_cases ha : a.isEmpty
      · rw [if_pos ha] at h
        exact Option.noConfusion h
      · rw [if_neg ha] at h
        have hc : c = 0 := by
          cases h
          rfl
        subst hc
        refine ⟨by simp, ?_, ?_⟩
        · simpa [List.isEmpty_iff] using ha
        · intro j hj hjl
          cases j with
          | zero => omega
          | succ j' =>
            simp only [List.getD_cons_succ]
            have hj' : j' < as.length := by simpa using hjl
            have hmem : as.getD j' [] ∈ as := by
              rw [List.getD_eq_getElem as [] hj']
              exact List.getElem_mem hj'
            exact lastNonempty_none h2 _ hmem

/-! ## Theorems: canonical remaining stacks and the structural invariant -/

theorem range'_drop : ∀ (m s n : Nat),
    (List.range' s n).drop m = List.range' (s + m) (n - m) := by
  intro m
  induction m with
  | zero => intro s n; simp
  | succ m ih =>
    intro s n
    cases n with
    | zero => simp
    | succ k =>
      rw [List.range'_succ]
      simp only [List.drop_succ_cons]
      rw [ih (s + 1) k]
      congr 1 <;> omega

theorem range_drop (n m : Nat) : (List.range n).drop m = List.range' m (n - m) := by
  rw [List.range_eq_range', range'_drop]
  congr 1
  omega

theorem nodup_of_sorted_gt {l : List Nat} (h : l.Sorted (fun a b => a > b)) :
    l.Nodup :=
  h.imp (fun hab => Nat.ne_of_gt hab)

theorem getLast_min_of_sorted_gt : ∀ {l : List Nat},
    l.Sorted (fun a b => a > b) → ∀ (hne : l ≠ []) (x : Nat), x ∈ l → l.getLast hne ≤ x := by
  intro l
  induction l with
  | nil => intro _ hne; exact absurd rfl hne
  | cons a as ih =>
    intro hs hne x hx
    cases as with
    | nil =>
      rcases List.mem_cons.mp hx with h | h
      · subst h; simp [List.getLast]
      · simp at h
    | cons b bs =>
      have hlast : (a :: b :: bs).getLast hne = (b :: bs).getLast (by simp) :=
        List.getLast_cons (by simp)
      rw [hlast]
      rcases List.mem_cons.mp hx with h | h
      · subst h
        have hb : (b :: bs).getLast (by simp) ∈ b :: bs := List.getLast_mem _
        exact le_of_lt (List.rel_of_sorted_cons hs _ hb)
      · exact ih (List.sorted_cons.mp hs).2 _ x h

theorem mem_canonicalRem {st : List Nat} {i x : Nat} :
    x ∈ canonicalRem st i ↔ x ∈ st.drop (i + 1) ∧ st.getD i 0 < x := by
  unfold canonicalRem
  rw [(sortDesc_perm _).mem_iff]
  simp [List.mem_filter]

theorem canonicalRem_congr {st st' : List Nat} {i : Nat}
    (hd : st.getD i 0 = st'.getD i 0)
    (hp : (st.drop (i + 1)).Perm (st'.drop (i + 1))) :
    canonicalRem st i = canonicalRem st' i := by
  unfold canonicalRem
  rw [hd]
  exact sortDesc_congr (hp.filter _)

theorem canonicalRem_eq_nil_iff {st : List Nat} {i : Nat} :
    canonicalRem st i = [] ↔ ∀ x ∈ st.drop (i + 1), ¬ st.getD i 0 < x := by
  constructor
  · intro h x hx hlt
    have hm : x ∈ canonicalRem st i := mem_canonicalRem.mpr ⟨hx, hlt⟩
    rw [h] at hm
    simp at hm
  · intro h
    unfold canonicalRem
    have hf : (st.drop (i + 1)).filter (fun x => decide (st.getD i 0 < x)) = [] := by
      rw [List.filter_eq_nil]
      intro a ha
      simpa using h a ha
    rw [hf]
    rfl

theorem canonicalRem_sorted_gt {st : List Nat} {i : Nat}
    (hn : (st.drop (i + 1)).Nodup) :
    (canonicalRem st i).Sorted (fun a b => a > b) :=
  sortDesc_sorted_gt (hn.filter _)

theorem eq_of_sorted_gt_of_mem_iff {u v : List Nat}
    (hu : u.Sorted (fun a b => a > b)) (hv : v.Sorted (fun a b => a > b))
    (hm : ∀ x, x ∈ u ↔ x ∈ v) : u = v :=
  List.eq_of_perm_of_sorted
    ((List.perm_ext_iff_of_nodup (nodup_of_sorted_gt hu) (nodup_of_sorted_gt hv)).mpr hm)
    hu hv

theorem state_mem_lt {T : Type} {s : TreePermutator T} (inv : PermInv s) {x : Nat}
    (hx : x ∈ s.state) : x < s.len := by
  have h := inv.hperm.mem_iff.mp hx
  simpa using h

theorem state_nodup {T : Type} {s : TreePermutator T} (inv : PermInv s) :
    s.state.Nodup :=
  inv.hperm.nodup_iff.mpr (List.nodup_range _)

theorem sortDesc_reverse_of_sorted_le {l : List Nat}
    (h : l.Sorted (fun a b => a ≤ b)) : sortDesc l = l.reverse := by
  have h2 : l.reverse.Sorted (fun a b => a ≥ b) := by
    rw [List.Sorted, List.pairwise_reverse]
    exact h
  calc sortDesc l = sortDesc l.reverse := sortDesc_congr (l.reverse_perm).symm
    _ = l.reverse := sortDesc_eq_self h2

theorem canonicalRem_range (n i : Nat) (hi : i < n) :
    canonicalRem (List.range n) i = revRange (i + 1) n := by
  unfold canonicalRem revRange
  rw [range_drop]
  have hd : (List.range n).getD i 0 = i := by
    rw [List.getD_eq_getElem _ _ (by simpa using hi)]
    simp
  rw [hd]
  have hf : (List.range' (i + 1) (n - (i + 1))).filter (fun x => decide (i < x)) =
      List.range' (i + 1) (n - (i + 1)) := by
    rw [List.filter_eq_self]
    intro a ha
    have := List.mem_range'.mp ha
    simp only [decide_eq_true_eq]
    omega
  rw [hf]
  exact sortDesc_reverse_of_sorted_le ((List.pairwise_lt_range' _ _).imp le_of_lt)

theorem new_full {T : Type} (input : List T) : PermFull (TreePermutator.new input) := by
  have hfe : ∀ i, i < (TreePermutator.new input).len →
      (TreePermutator.new input).remaining.getD i [] =
        canonicalRem (TreePermutator.new input).state i := by
    intro i hi
    simp only [TreePermutator.new] at hi ⊢
    rw [canonicalRem_range _ _ hi]
    rw [List.getD_eq_getElem _ _ (by simpa using hi)]
    simp
  refine ⟨⟨rfl, by simp [TreePermutator.new], by simp [TreePermutator.new],
    by simp [TreePermutator.new], fun i hi => Or.inl (hfe i hi)⟩, hfe⟩

theorem failPos_state {T : Type} (s : TreePermutator T) (p : Nat) :
    (s.failPos p).state = s.state := rfl

theorem failPos_len {T : Type} (s : TreePermutator T) (p : Nat) :
    (s.failPos p).len = s.len := rfl

theorem failPos_data {T : Type} (s : TreePermutator T) (p : Nat) :
    (s.failPos p).data = s.data := rfl

theorem failPos_started {T : Type} (s : TreePermutator T) (p : Nat) :
    (s.failPos p).started = s.started := rfl

theorem failPos_remaining_getD {T : Type} (s : TreePermutator T) (p i : Nat)
    (hi : i < s.remaining.length) :
    (s.failPos p).remaining.getD i [] =
      if p + 1 ≤ i ∧ i < s.len then [] else s.remaining.getD i [] := by
  simp only [TreePermutator.failPos]
  rw [List.getD_eq_getElem _ _ (by simpa using hi)]
  rw [List.getD_eq_getElem _ _ hi]
  simp [List.getElem_mapIdx]

theorem failPos_remaining_length {T : Type} (s : TreePermutator T) (p : Nat) :
    (s.failPos p).remaining.length = s.remaining.length := by
  simp [TreePermutator.failPos]

theorem failPos_inv {T : Type} {s : TreePermutator T} (inv : PermInv s) (p : Nat) :
    PermInv (s.failPos p) := by
  refine ⟨inv.hdata, inv.hstate, ?_, inv.hperm, ?_⟩
  · rw [failPos_remaining_length]
    exact inv.hrem
  · intro i hi
    rw [failPos_remaining_getD _ _ _ (by rw [inv.hrem]; exact hi)]
    by_cases hc : p + 1 ≤ i ∧ i < s.len
    · rw [if_pos hc]
      exact Or.inr rfl
    · rw [if_neg hc]
      exact inv.hfe i hi

/-! ## Theorems: shape of the state after one `next()` step -/

theorem take_append_of_length {A B : List α} {c : Nat} (h : A.length = c) :
    (A ++ B).take c = A := by
  subst h
  exact List.take_left A B

theorem getD_append_of_length {A B : List α} {c : Nat} (h : A.length = c) (d : α) :
    (A ++ B).getD c d = B.getD 0 d := by
  subst h
  rw [List.getD_append_right _ _ _ _ (le_refl _)]
  simp

theorem drop_succ_append_of_length {A : List α} {x : α} {B : List α} {c : Nat}
    (h : A.length = c) : (A ++ x :: B).drop (c + 1) = B := by
  subst h
  rw [List.drop_append_eq_append_drop]
  rw [List.drop_eq_nil_of_le (by omega)]
  have h2 : A.length + 1 - A.length = 1 := by omega
  rw [h2]
  simp

theorem getD_append_lt_of_length {A B : List α} {c i : Nat} (h : A.length = c)
    (hi : i < c) (d : α) : (A ++ B).getD i d = A.getD i d :=
  List.getD_append _ _ _ _ (by omega)

theorem getD_take_of_lt (l : List α) {i c : Nat} (hi : i < c) (d : α) :
    (l.take c).getD i d = l.getD i d := by
  by_cases h : i < l.length
  · rw [List.getD_eq_getElem _ _ (by simp; omega), List.getD_eq_getElem _ _ h]
    exact List.getElem_take ..
  · rw [List.getD_eq_default _ _ (by simp; omega), List.getD_eq_default _ _ (by omega)]

theorem drop_append_le_of_length {A B : List α} {c m : Nat} (h : A.length = c)
    (hm : m ≤ c) : (A ++ B).drop m = A.drop m ++ B := by
  rw [List.drop_append_eq_append_drop]
  have h2 : m - A.length = 0 := by omega
  rw [h2]
  simp

theorem drop_eq_getD_cons {l : List α} {c : Nat} (h : c < l.length) (d : α) :
    l.drop c = l.getD c d :: l.drop (c + 1) := by
  rw [List.getD_eq_getElem _ _ h]
  exact List.drop_eq_getElem_cons h

theorem mem_drop_of_mem_drop_succ {l : List α} {c : Nat} {x : α}
    (hc : c < l.length) (h : x ∈ l.drop (c + 1)) : x ∈ l.drop c := by
  rw [drop_eq_getD_cons hc x]
  exact List.mem_cons_of_mem _ h

theorem pool_length {st : List Nat} {c e : Nat} {pool : List Nat}
    (hpool : pool = sortDesc ((st.drop c).erase e))
    (hem : e ∈ st.drop c) :
    pool.length = st.length - c - 1 := by
  rw [hpool]
  rw [(sortDesc_perm _).length_eq]
  rw [List.length_erase_of_mem hem]
  simp

theorem stepped_length {st : List Nat} {c e : Nat} {pool st' : List Nat}
    (hpool : pool = sortDesc ((st.drop c).erase e))
    (hst' : st' = st.take c ++ e :: pool.reverse)
    (hc : c < st.length) (hem : e ∈ st.drop c) :
    st'.length = st.length := by
  rw [hst']
  simp only [List.length_append, List.length_take, List.length_cons,
    List.length_reverse]
  rw [pool_length hpool hem]
  omega

theorem stepped_perm {st : List Nat} {c e : Nat} {pool st' : List Nat}
    (hpool : pool = sortDesc ((st.drop c).erase e))
    (hst' : st' = st.take c ++ e :: pool.reverse)
    (hem : e ∈ st.drop c) :
    st'.Perm st := by
  rw [hst', hpool]
  have h1 : (e :: ((sortDesc ((st.drop c).erase e)).reverse)).Perm (st.drop c) := by
    have h2 : ((sortDesc ((st.drop c).erase e)).reverse).Perm ((st.drop c).erase e) :=
      (List.reverse_perm _).trans (sortDesc_perm _)
    exact (h2.cons e).trans (List.perm_cons_erase hem).symm
  have h3 := h1.append_left (st.take c)
  exact h3.trans (by rw [List.take_append_drop])

theorem stepped_take {st : List Nat} {c e : Nat} {pool st' : List Nat}
    (hst' : st' = st.take c ++ e :: pool.reverse)
    (hc : c ≤ st.length) :
    st'.take c = st.take c := by
  rw [hst']
  exact take_append_of_length (by rw [List.length_take]; omega)

theorem stepped_getD {st : List Nat} {c e : Nat} {pool st' : List Nat}
    (hst' : st' = st.take c ++ e :: pool.reverse)
    (hc : c ≤ st.length) :
    st'.getD c 0 = e := by
  rw [hst']
  rw [getD_append_of_length (by rw [List.length_take]; omega)]
  rfl

theorem stepped_drop {st : List Nat} {c e : Nat} {pool st' : List Nat}
    (hst' : st' = st.take c ++ e :: pool.reverse)
    (hc : c ≤ st.length) :
    st'.drop (c + 1) = pool.reverse := by
  rw [hst']
  exact drop_succ_append_of_length (by rw [List.length_take]; omega)

theorem stepped_lexLt {st : List Nat} {c e : Nat} {pool st' : List Nat}
    (hpool : pool = sortDesc ((st.drop c).erase e))
    (hst' : st' = st.take c ++ e :: pool.reverse)
    (hc : c < st.length) (hem : e ∈ st.drop c) (hgt : st.getD c 0 < e) :
    lexLt st st' = true := by
  apply lexLt_of_take_eq_lt c st st' (stepped_take hst' (le_of_lt hc)).symm hc
  · rw [stepped_length hpool hst' hc hem]
    exact hc
  · rw [stepped_getD hst' (le_of_lt hc)]
    exact hgt

theorem pool_reverse_sorted_lt (l : List Nat) (hnd : l.Nodup) :
    (sortDesc l).reverse.Sorted (fun a b => a < b) := by
  rw [List.Sorted, List.pairwise_reverse]
  exact sortDesc_sorted_gt hnd

theorem stepped_suffix_perm {st : List Nat} {c e : Nat} {pool : List Nat}
    (hpool : pool = sortDesc ((st.drop c).erase e))
    (hem : e ∈ st.drop c) :
    (e :: pool.reverse).Perm (st.drop c) := by
  rw [hpool]
  have h2 : ((sortDesc ((st.drop c).erase e)).reverse).Perm ((st.drop c).erase e) :=
    (List.reverse_perm _).trans (sortDesc_perm _)
  exact (h2.cons e).trans (List.perm_cons_erase hem).symm

theorem stepped_canonical_lt {st : List Nat} {c e : Nat} {pool st' : List Nat}
    (hpool : pool = sortDesc ((st.drop c).erase e))
    (hst' : st' = st.take c ++ e :: pool.reverse)
    (hem : e ∈ st.drop c) (hc : c ≤ st.length)
    {i : Nat} (hi : i < c) :
    canonicalRem st' i = canonicalRem st i := by
  have hlt : (st.take c).length = c := by rw [List.length_take]; omega
  apply canonicalRem_congr
  · rw [hst', getD_append_lt_of_length hlt hi, getD_take_of_lt _ hi]
  · rw [hst', drop_append_le_of_length hlt (by omega)]
    conv_rhs => rw [← List.take_append_drop c st]
    rw [drop_append_le_of_length hlt (by omega)]
    exact (stepped_suffix_perm hpool hem).append_left _

theorem mem_dropLast_sorted_gt {K : List Nat} (hs : K.Sorted (fun a b => a > b))
    (hne : K ≠ []) (x : Nat) :
    x ∈ K.dropLast ↔ x ∈ K ∧ K.getLast hne < x := by
  have hsplit : K.dropLast ++ [K.getLast hne] = K := List.dropLast_append_getLast hne
  have hpw : (K.dropLast ++ [K.getLast hne]).Pairwise (fun a b => a > b) := by
    rw [hsplit]
    exact hs
  have hgt : ∀ a ∈ K.dropLast, K.getLast hne < a := by
    intro a ha
    exact (List.pairwise_append.mp hpw).2.2 a ha _ (by simp)
  constructor
  · intro hx
    exact ⟨(List.dropLast_sublist K).subset hx, hgt x hx⟩
  · intro ⟨hx, hlt⟩
    rw [← hsplit] at hx
    rcases List.mem_append.mp hx with h | h
    · exact h
    · simp only [List.mem_singleton] at h
      omega

theorem stepped_canonical_at {st : List Nat} {c e : Nat} {pool st' : List Nat}
    (hnd : st.Nodup) (hc : c < st.length)
    (hKne : canonicalRem st c ≠ [])
    (he : e = (canonicalRem st c).getLast hKne)
    (hpool : pool = sortDesc ((st.drop c).erase e))
    (hst' : st' = st.take c ++ e :: pool.reverse) :
    canonicalRem st' c = (canonicalRem st c).dropLast := by
  have hsufnd : (st.drop (c + 1)).Nodup := hnd.sublist (List.drop_sublist _ _)
  have hWnd : (st.drop c).Nodup := hnd.sublist (List.drop_sublist _ _)
  have hKs : (canonicalRem st c).Sorted (fun a b => a > b) :=
    canonicalRem_sorted_gt hsufnd
  have heK : e ∈ canonicalRem st c := he ▸ List.getLast_mem hKne
  have hmemK := mem_canonicalRem.mp heK
  have hem : e ∈ st.drop c := mem_drop_of_mem_drop_succ hc hmemK.1
  have hpoolnd : pool.Nodup := by
    rw [hpool]
    exact (sortDesc_perm _).nodup_iff.mpr (hWnd.erase e)
  apply eq_of_sorted_gt_of_mem_iff
  · apply canonicalRem_sorted_gt
    rw [stepped_drop hst' (le_of_lt hc)]
    simpa using hpoolnd
  · exact hKs.sublist (List.dropLast_sublist _)
  · intro x
    rw [mem_canonicalRem, stepped_drop hst' (le_of_lt hc),
      stepped_getD hst' (le_of_lt hc)]
    rw [mem_dropLast_sorted_gt hKs hKne, ← he]
    have hx1 : x ∈ pool.reverse ↔ x ∈ (st.drop c).erase e := by
      rw [List.mem_reverse, hpool, (sortDesc_perm _).mem_iff]
    rw [hx1, hWnd.mem_erase_iff]
    rw [drop_eq_getD_cons hc 0]
    constructor
    · intro ⟨⟨hne, hmem⟩, hlt⟩
      refine ⟨mem_canonicalRem.mpr ⟨?_, ?_⟩, hlt⟩
      · rcases List.mem_cons.mp hmem with h | h
        · exfalso
          have := hmemK.2
          omega
        · exact h
      · have := hmemK.2
        omega
    · intro ⟨hK, hlt⟩
      have hm := mem_canonicalRem.mp hK
      exact ⟨⟨by omega, List.mem_cons_of_mem _ hm.1⟩, hlt⟩

theorem sorted_lt_drop_gt {rev : List Nat} (hs : rev.Sorted (fun a b => a < b))
    {j : Nat} (hj : j < rev.length) :
    ∀ x ∈ rev.drop (j + 1), rev.getD j 0 < x := by
  intro x hx
  obtain ⟨k, hk, hxk⟩ := List.getElem_of_mem hx
  have hklen : j + 1 + k < rev.length := by
    have := hk
    simp only [List.length_drop] at this
    omega
  have hxe : x = rev[j + 1 + k] := by
    rw [← hxk]
    exact List.getElem_drop ..
  rw [List.getD_eq_getElem _ _ hj, hxe]
  exact (List.pairwise_iff_getElem.mp hs) j (j + 1 + k) hj hklen (by omega)

theorem stepped_canonical_gt {st : List Nat} {c e : Nat} {pool st' : List Nat}
    (hWnd : (st.drop c).Nodup)
    (hpool : pool = sortDesc ((st.drop c).erase e))
    (hst' : st' = st.take c ++ e :: pool.reverse)
    (hc : c ≤ st.length)
    {j : Nat} (hj : j < pool.length) :
    canonicalRem st' (c + 1 + j) = pool.take (pool.length - (j + 1)) := by
  have hlt : (st.take c).length = c := by rw [List.length_take]; omega
  have hrevasc : pool.reverse.Sorted (fun a b => a < b) := by
    rw [hpool]
    exact pool_reverse_sorted_lt _ (hWnd.erase e)
  have hgd : st'.getD (c + 1 + j) 0 = pool.reverse.getD j 0 := by
    rw [hst', List.getD_append_right _ _ _ _ (by omega)]
    have h2 : c + 1 + j - (st.take c).length = j + 1 := by omega
    rw [h2]
    simp
  have hdropj : st'.drop (c + 1 + j + 1) = pool.reverse.drop (j + 1) := by
    have h3 : c + 1 + j + 1 = (c + 1) + (j + 1) := by omega
    rw [h3, ← List.drop_drop, stepped_drop hst' hc]
  unfold canonicalRem
  rw [hdropj, hgd]
  have hfs : (pool.reverse.drop (j + 1)).filter
      (fun x => decide (pool.reverse.getD j 0 < x)) = pool.reverse.drop (j + 1) := by
    rw [List.filter_eq_self]
    intro a ha
    simpa using sorted_lt_drop_gt hrevasc (by simpa using hj) a ha
  rw [hfs]
  rw [List.drop_reverse]
  have hpoolsorted : pool.Sorted (fun a b => a ≥ b) := by
    rw [hpool]
    exact sortDesc_sorted _
  rw [sortDesc_congr (List.reverse_perm _)]
  exact sortDesc_eq_self (hpoolsorted.sublist (List.take_sublist _ _))

theorem descTails_getD (pool : List Nat) {j : Nat} (hj : j < pool.length) :
    (descTails pool).getD j [] = pool.take (pool.length - (j + 1)) := by
  unfold descTails
  rw [List.getD_eq_getElem _ _ (by simpa using hj)]
  simp

/-! ## Theorems: lexicographic minimality of the emitted successor -/

theorem drop_perm_of_take_eq {st t : List Nat} {n : Nat}
    (hst : st.Perm (List.range n)) (ht : t.Perm (List.range n))
    {i : Nat} (htake : t.take i = st.take i) :
    (t.drop i).Perm (st.drop i) := by
  have hp : t.Perm st := ht.trans hst.symm
  have h1 : (t.take i ++ t.drop i).Perm (st.take i ++ st.drop i) := by
    rw [List.take_append_drop, List.take_append_drop]
    exact hp
  rw [htake] at h1
  exact (List.perm_append_left_iff _).mp h1

theorem diff_elem_canonical {st t : List Nat} {n i : Nat}
    (hst : st.Perm (List.range n)) (ht : t.Perm (List.range n))
    (htake : st.take i = t.take i) (hi : i < st.length)
    (hd : st.getD i 0 < t.getD i 0) :
    canonicalRem st i ≠ [] := by
  intro hcan
  have hlen_t : t.length = st.length := by
    rw [ht.length_eq, hst.length_eq]
  have hti : i < t.length := by omega
  have hdp : (t.drop i).Perm (st.drop i) := drop_perm_of_take_eq hst ht htake.symm
  have h5 : t.getD i 0 ∈ st.drop i := by
    have h6 : t.getD i 0 ∈ t.drop i := by
      rw [drop_eq_getD_cons hti 0]
      exact List.mem_cons_self _ _
    exact hdp.subset h6
  rw [drop_eq_getD_cons hi 0] at h5
  rcases List.mem_cons.mp h5 with h6 | h6
  · omega
  · exact (canonicalRem_eq_nil_iff.mp hcan _ h6) hd

theorem no_bigger_diff {st : List Nat} {n m : Nat}
    (hst : st.Perm (List.range n))
    (hm : ∀ i, i < m → i < st.length → canonicalRem st i = []) :
    ∀ t, t.Perm (List.range n) → lexLt st t = true → t.take m = st.take m := by
  intro t ht hlt
  by_contra hne
  have hlen : st.length = t.length := by
    rw [hst.length_eq, ht.length_eq]
  obtain ⟨i, hi, htake, hd⟩ := lexLt_exists_of_lt st t hlt hlen
  have him : i < m := by
    by_contra hge
    apply hne
    have h7 : (t.take i).take m = t.take m := by
      rw [List.take_take]
      congr 1
      omega
    have h8 : (st.take i).take m = st.take m := by
      rw [List.take_take]
      congr 1
      omega
    rw [← h7, ← htake, h8]
  exact diff_elem_canonical hst ht htake hi hd (hm i him hi)

theorem take_succ_eq {l : List Nat} {c : Nat} (h : c < l.length) :
    l.take (c + 1) = l.take c ++ [l.getD c 0] := by
  rw [List.take_succ]
  congr 1
  rw [List.getElem?_eq_getElem h]
  rw [List.getD_eq_getElem _ _ h]
  rfl

theorem stepped_minimal {st : List Nat} {n c e : Nat} {pool st' : List Nat}
    (hst : st.Perm (List.range n)) (hnd : st.Nodup) (hc : c < st.length)
    (hKne : canonicalRem st c ≠ [])
    (he : e = (canonicalRem st c).getLast hKne)
    (hpool : pool = sortDesc ((st.drop c).erase e))
    (hst' : st' = st.take c ++ e :: pool.reverse)
    {m : Nat} (hcm : c < m)
    (hcan : ∀ i, c < i → i < m → i < st.length → canonicalRem st i = [])
    {t : List Nat} (ht : t.Perm (List.range n)) (hlt : lexLt st t = true)
    (hdiff : t.take m ≠ st.take m) :
    t = st' ∨ lexLt st' t = true := by
  have hsufnd : (st.drop (c + 1)).Nodup := hnd.sublist (List.drop_sublist _ _)
  have hKs : (canonicalRem st c).Sorted (fun a b => a > b) :=
    canonicalRem_sorted_gt hsufnd
  have heK : e ∈ canonicalRem st c := he ▸ List.getLast_mem hKne
  have hmemK := mem_canonicalRem.mp heK
  have hem : e ∈ st.drop c := mem_drop_of_mem_drop_succ hc hmemK.1
  have hlen : st.length = t.length := by
    rw [hst.length_eq, ht.length_eq]
  have hlen' : st'.length = st.length := stepped_length hpool hst' hc hem
  obtain ⟨i, hi, htake, hd⟩ := lexLt_exists_of_lt st t hlt hlen
  have him : i < m := by
    by_contra hge
    apply hdiff
    have h7 : (t.take i).take m = t.take m := by
      rw [List.take_take]
      congr 1
      omega
    have h8 : (st.take i).take m = st.take m := by
      rw [List.take_take]
      congr 1
      omega
    rw [← h7, ← htake, h8]
  have hic : i ≤ c := by
    by_contra hgt
    exact diff_elem_canonical hst ht htake hi hd
      (hcan i (by omega) him hi)
  rcases Nat.lt_or_ge i c with hilt | hige
  · -- the first difference is strictly below the changed position
    right
    apply lexLt_of_take_eq_lt i
    · have h9 : st'.take i = st.take i := by
        have h10 : (st'.take c).take i = st'.take i := by
          rw [List.take_take]
          congr 1
          omega
        rw [← h10, stepped_take hst' (le_of_lt hc), List.take_take]
        congr 1
        omega
      rw [h9, htake]
    · omega
    · omega
    · have h11 : st'.getD i 0 = st.getD i 0 := by
        rw [hst', getD_append_lt_of_length (by rw [List.length_take]; omega) hilt,
          getD_take_of_lt _ hilt]
      rw [h11]
      exact hd
  · -- the first difference is at the changed position itself
    have hieq : i = c := by omega
    subst hieq
    have htc : t.getD i 0 ∈ canonicalRem st i := by
      apply mem_canonicalRem.mpr
      have hdp : (t.drop i).Perm (st.drop i) := drop_perm_of_take_eq hst ht htake.symm
      have h5 : t.getD i 0 ∈ st.drop i := by
        have h6 : t.getD i 0 ∈ t.drop i := by
          rw [drop_eq_getD_cons (by omega) 0]
          exact List.mem_cons_self _ _
        exact hdp.subset h6
      rw [drop_eq_getD_cons hi 0] at h5
      rcases List.mem_cons.mp h5 with h6 | h6
      · omega
      · exact ⟨h6, hd⟩
    have hele : e ≤ t.getD i 0 := by
      rw [he]
      exact getLast_min_of_sorted_gt hKs hKne _ htc
    rcases Nat.lt_or_ge e (t.getD i 0) with helt | hege
    · right
      apply lexLt_of_take_eq_lt i
      · rw [stepped_take hst' (le_of_lt hc), htake]
      · omega
      · omega
      · rw [stepped_getD hst' (le_of_lt hc)]
        exact helt
    · -- the choice at the changed position agrees; compare the tails
      have hee : t.getD i 0 = e := by omega
      have htsuf : (t.drop (i + 1)).Perm pool.reverse := by
        have hdp : (t.drop i).Perm (st.drop i) := drop_perm_of_take_eq hst ht htake.symm
        have h12 : t.drop i = e :: t.drop (i + 1) := by
          rw [drop_eq_getD_cons (by omega) 0, hee]
        have h13 : (e :: t.drop (i + 1)).Perm (e :: pool.reverse) := by
          rw [← h12]
          exact hdp.trans (stepped_suffix_perm hpool hem).symm
        exact h13.cons_inv
      have hrevasc : pool.reverse.Sorted (fun a b => a < b) := by
        rw [hpool]
        exact pool_reverse_sorted_lt _ ((hnd.sublist (List.drop_sublist _ _)).erase e)
      have hpre : t.take (i + 1) = st'.take (i + 1) := by
        rw [take_succ_eq (show i < t.length by omega),
          take_succ_eq (show i < st'.length by omega)]
        rw [← htake, hee, stepped_take hst' (le_of_lt hc),
          stepped_getD hst' (le_of_lt hc)]
      rcases sorted_lt_lex_min hrevasc htsuf with h14 | h14
      · left
        have h15 : t.drop (i + 1) = st'.drop (i + 1) := by
          rw [h14, stepped_drop hst' (le_of_lt hc)]
        calc t = t.take (i + 1) ++ t.drop (i + 1) := (List.take_append_drop _ _).symm
          _ = st'.take (i + 1) ++ st'.drop (i + 1) := by rw [hpre, h15]
          _ = st' := List.take_append_drop _ _
      · right
        have h16 : lexLt st' t =
            lexLt (st'.drop (i + 1)) (t.drop (i + 1)) := by
          conv_lhs => rw [← List.take_append_drop (i + 1) st',
            ← List.take_append_drop (i + 1) t]
          rw [← hpre]
          exact lexLt_append_left _ _ _
        rw [h16, stepped_drop hst' (le_of_lt hc)]
        exact h14

/-! ## Theorems: one `next()` call on a machine with the invariant -/

theorem take_succ_append_of_length {A : List α} {x : α} {B : List α} {c : Nat}
    (h : A.length = c) : (A ++ x :: B).take (c + 1) = A ++ [x] := by
  subst h
  rw [List.take_append_eq_append_take]
  rw [List.take_all_of_le (by omega)]
  have h2 : A.length + 1 - A.length = 1 := by omega
  rw [h2]
  rfl

theorem set_take_succ {l : List α} {c : Nat} (h : c < l.length) (x : α) :
    (l.set c x).take (c + 1) = l.take c ++ [x] := by
  rw [List.set_eq_take_cons_drop x h]
  exact take_succ_append_of_length (by rw [List.length_take]; omega)

theorem getAll_some {T : Type} (data : List T) :
    ∀ idxs : List Nat, (∀ i ∈ idxs, i < data.length) →
      ∃ out, getAll data idxs = some out := by
  intro idxs
  induction idxs with
  | nil => intro _; exact ⟨[], rfl⟩
  | cons a l ih =>
    intro h
    obtain ⟨out, hout⟩ := ih (fun i hi => h i (List.mem_cons_of_mem _ hi))
    have ha : a < data.length := h a (List.mem_cons_self _ _)
    refine ⟨data[a] :: out, ?_⟩
    simp [getAll, hout, List.getElem?_eq_getElem ha]

theorem advance {T : Type} {s : TreePermutator T} (inv : PermInv s)
    (hst : s.started = true) {c : Nat}
    (hc : lastNonempty s.remaining = some c) :
    ∃ (out : List T) (s' : TreePermutator T),
      s.next = .emit out s'
      ∧ getAll s.data s'.state = some out
      ∧ s'.data = s.data ∧ s'.len = s.len ∧ s'.started = true
      ∧ s'.state.Perm (List.range s.len)
      ∧ PermInv s'
      ∧ c < s.len
      ∧ s'.state.take c = s.state.take c
      ∧ lexLt s.state s'.state = true
      ∧ s.state.getD c 0 < s'.state.getD c 0
      ∧ (∀ i, c ≤ i → i < s.len →
          s'.remaining.getD i [] = canonicalRem s'.state i)
      ∧ (∀ i, i < c → s'.remaining.getD i [] = s.remaining.getD i []
          ∧ canonicalRem s'.state i = canonicalRem s.state i)
      ∧ (∀ m, c < m →
          (∀ i, c < i → i < m → i < s.len → canonicalRem s.state i = []) →
          ∀ t, t.Perm (List.range s.len) → lexLt s.state t = true →
            t.take m ≠ s.state.take m → t = s'.state ∨ lexLt s'.state t = true) := by
  obtain ⟨hcb, hcne, _⟩ := lastNonempty_some hc
  have hcl : c < s.len := by rw [← inv.hrem]; exact hcb
  have hc_st : c < s.state.length := by rw [inv.hstate]; exact hcl
  have hK : s.remaining.getD c [] = canonicalRem s.state c :=
    (inv.hfe c hcl).resolve_right hcne
  have hKne : canonicalRem s.state c ≠ [] := by rw [← hK]; exact hcne
  have hnd : s.state.Nodup := state_nodup inv
  have hKs : (canonicalRem s.state c).Sorted (fun a b => a > b) :=
    canonicalRem_sorted_gt (hnd.sublist (List.drop_sublist _ _))
  have heK : (canonicalRem s.state c).getLast hKne ∈ canonicalRem s.state c :=
    List.getLast_mem hKne
  have hmemK := mem_canonicalRem.mp heK
  have hem : (canonicalRem s.state c).getLast hKne ∈ s.state.drop c :=
    mem_drop_of_mem_drop_succ hc_st hmemK.1
  have hpoollen :
      (sortDesc ((s.state.drop c).erase ((canonicalRem s.state c).getLast hKne))).length =
        s.len - (c + 1) := by
    rw [pool_length rfl hem, inv.hstate]
    omega
  have hst'perm :
      (s.state.take c ++ (canonicalRem s.state c).getLast hKne ::
        (sortDesc ((s.state.drop c).erase
          ((canonicalRem s.state c).getLast hKne))).reverse).Perm (List.range s.len) :=
    (stepped_perm rfl rfl hem).trans inv.hperm
  have hmemlt : ∀ i ∈ (s.state.take c ++ (canonicalRem s.state c).getLast hKne ::
      (sortDesc ((s.state.drop c).erase
        ((canonicalRem s.state c).getLast hKne))).reverse), i < s.data.length := by
    intro i hi
    rw [inv.hdata]
    have h2 := hst'perm.subset hi
    simpa using h2
  obtain ⟨out0, hout0⟩ := getAll_some s.data _ hmemlt
  have hgetc : s.remaining[c]? = some (canonicalRem s.state c) := by
    rw [List.getElem?_eq_getElem hcb, ← List.getD_eq_getElem s.remaining [] hcb, hK]
  have hKlast : (canonicalRem s.state c).getLast? =
      some ((canonicalRem s.state c).getLast hKne) :=
    List.getLast?_eq_getLast _ hKne
  have hew : (canonicalRem s.state c).getLast hKne ∈ s.state.drop c := hem
  have hrefill := refillLoop_eq (s.len - (c + 1))
    (sortDesc ((s.state.drop c).erase ((canonicalRem s.state c).getLast hKne)))
    (s.state.set c ((canonicalRem s.state c).getLast hKne))
    (s.remaining.set c (canonicalRem s.state c).dropLast)
    (c + 1) hpoollen
  have hsetlen : (s.state.set c ((canonicalRem s.state c).getLast hKne)).length =
      s.len := by rw [List.length_set, inv.hstate]
  have hsetlen2 : (s.remaining.set c (canonicalRem s.state c).dropLast).length =
      s.len := by rw [List.length_set, inv.hrem]
  have hovst : overwriteFrom (s.state.set c ((canonicalRem s.state c).getLast hKne))
      (c + 1)
      (sortDesc ((s.state.drop c).erase ((canonicalRem s.state c).getLast hKne))).reverse =
      s.state.take c ++ (canonicalRem s.state c).getLast hKne ::
        (sortDesc ((s.state.drop c).erase
          ((canonicalRem s.state c).getLast hKne))).reverse := by
    rw [overwriteFrom_eq_append _ _ _
      (by rw [List.length_reverse, hpoollen, hsetlen]; omega)]
    rw [set_take_succ hc_st]
    rw [List.length_reverse, hpoollen]
    have hdrop0 : (s.state.set c ((canonicalRem s.state c).getLast hKne)).drop
        (c + 1 + (s.len - (c + 1))) = [] := by
      apply List.drop_eq_nil_of_le
      rw [hsetlen]
      omega
    rw [hdrop0]
    simp
  have hovrem : overwriteFrom (s.remaining.set c (canonicalRem s.state c).dropLast)
      (c + 1)
      (descTails (sortDesc ((s.state.drop c).erase
        ((canonicalRem s.state c).getLast hKne)))) =
      s.remaining.take c ++ (canonicalRem s.state c).dropLast ::
        descTails (sortDesc ((s.state.drop c).erase
          ((canonicalRem s.state c).getLast hKne))) := by
    rw [overwriteFrom_eq_append _ _ _
      (by rw [descTails_length, hpoollen, hsetlen2]; omega)]
    rw [set_take_succ (by rw [inv.hrem]; exact hcl)]
    rw [descTails_length, hpoollen]
    have hdrop0 : (s.remaining.set c (canonicalRem s.state c).dropLast).drop
        (c + 1 + (s.len - (c + 1))) = [] := by
      apply List.drop_eq_nil_of_le
      rw [hsetlen2]
      omega
    rw [hdrop0]
    simp
  have hnext : s.next = .emit out0
      { s with
        state := s.state.take c ++ (canonicalRem s.state c).getLast hKne ::
          (sortDesc ((s.state.drop c).erase
            ((canonicalRem s.state c).getLast hKne))).reverse
        remaining := s.remaining.take c ++ (canonicalRem s.state c).dropLast ::
          descTails (sortDesc ((s.state.drop c).erase
            ((canonicalRem s.state c).getLast hKne))) } := by
    simp only [TreePermutator.next, hst, Bool.true_eq_false, if_false, hc, hgetc,
      hKlast, hew, if_true, hrefill, hovst, hovrem, hout0]
  have hstate' : (s.state.take c ++ (canonicalRem s.state c).getLast hKne ::
      (sortDesc ((s.state.drop c).erase
        ((canonicalRem s.state c).getLast hKne))).reverse).length = s.len := by
    rw [stepped_length rfl rfl hc_st hem, inv.hstate]
  have hlt : (s.remaining.take c).length = c := by
    rw [List.length_take, inv.hrem]
    omega
  have hremgetD_lt : ∀ i, i < c →
      (s.remaining.take c ++ (canonicalRem s.state c).dropLast ::
        descTails (sortDesc ((s.state.drop c).erase
          ((canonicalRem s.state c).getLast hKne)))).getD i [] =
      s.remaining.getD i [] := by
    intro i hi
    rw [getD_append_lt_of_length hlt hi, getD_take_of_lt _ hi]
  have hremgetD_at :
      (s.remaining.take c ++ (canonicalRem s.state c).dropLast ::
        descTails (sortDesc ((s.state.drop c).erase
          ((canonicalRem s.state c).getLast hKne)))).getD c [] =
      (canonicalRem s.state c).dropLast := by
    rw [getD_append_of_length hlt]
    rfl
  have hremgetD_gt : ∀ j, j < s.len - (c + 1) →
      (s.remaining.take c ++ (canonicalRem s.state c).dropLast ::
        descTails (sortDesc ((s.state.drop c).erase
          ((canonicalRem s.state c).getLast hKne)))).getD (c + 1 + j) [] =
      (sortDesc ((s.state.drop c).erase
        ((canonicalRem s.state c).getLast hKne))).take
          ((sortDesc ((s.state.drop c).erase
            ((canonicalRem s.state c).getLast hKne))).length - (j + 1)) := by
    intro j hj
    rw [List.getD_append_right _ _ _ _ (by omega)]
    have h2 : c + 1 + j - (s.remaining.take c).length = j + 1 := by omega
    rw [h2]
    rw [List.getD_cons_succ]
    exact descTails_getD _ (by rw [hpoollen]; omega)
  have hcan_at : canonicalRem (s.state.take c ++ (canonicalRem s.state c).getLast hKne ::
      (sortDesc ((s.state.drop c).erase
        ((canonicalRem s.state c).getLast hKne))).reverse) c =
      (canonicalRem s.state c).dropLast :=
    stepped_canonical_at hnd hc_st hKne rfl rfl rfl
  have hcan_gt : ∀ j, j < s.len - (c + 1) →
      canonicalRem (s.state.take c ++ (canonicalRem s.state c).getLast hKne ::
        (sortDesc ((s.state.drop c).erase
          ((canonicalRem s.state c).getLast hKne))).reverse) (c + 1 + j) =
      (sortDesc ((s.state.drop c).erase
        ((canonicalRem s.state c).getLast hKne))).take
          ((sortDesc ((s.state.drop c).erase
            ((canonicalRem s.state c).getLast hKne))).length - (j + 1)) := by
    intro j hj
    exact stepped_canonical_gt (hnd.sublist (List.drop_sublist _ _)) rfl rfl
      (le_of_lt hc_st) (by rw [hpoollen]; omega)
  have hfullge : ∀ i, c ≤ i → i < s.len →
      (s.remaining.take c ++ (canonicalRem s.state c).dropLast ::
        descTails (sortDesc ((s.state.drop c).erase
          ((canonicalRem s.state c).getLast hKne)))).getD i [] =
      canonicalRem (s.state.take c ++ (canonicalRem s.state c).getLast hKne ::
        (sortDesc ((s.state.drop c).erase
          ((canonicalRem s.state c).getLast hKne))).reverse) i := by
    intro i hci hil
    rcases Nat.eq_or_lt_of_le hci with heq | hlt2
    · subst heq
      rw [hremgetD_at, hcan_at]
    · have hj : i = c + 1 + (i - c - 1) := by omega
      rw [hj, hremgetD_gt _ (by omega), hcan_gt _ (by omega)]
  have hbelow : ∀ i, i < c →
      (s.remaining.take c ++ (canonicalRem s.state c).dropLast ::
        descTails (sortDesc ((s.state.drop c).erase
          ((canonicalRem s.state c).getLast hKne)))).getD i [] =
        s.remaining.getD i []
      ∧ canonicalRem (s.state.take c ++ (canonicalRem s.state c).getLast hKne ::
          (sortDesc ((s.state.drop c).erase
            ((canonicalRem s.state c).getLast hKne))).reverse) i =
        canonicalRem s.state i := by
    intro i hi
    exact ⟨hremgetD_lt i hi,
      stepped_canonical_lt rfl rfl hem (le_of_lt hc_st) hi⟩
  have hinv' : PermInv ({ s with
      state := s.state.take c ++ (canonicalRem s.state c).getLast hKne ::
        (sortDesc ((s.state.drop c).erase
          ((canonicalRem s.state c).getLast hKne))).reverse
      remaining := s.remaining.take c ++ (canonicalRem s.state c).dropLast ::
        descTails (sortDesc ((s.state.drop c).erase
          ((canonicalRem s.state c).getLast hKne))) } : TreePermutator T) := by
    refine ⟨inv.hdata, hstate', ?_, hst'perm, ?_⟩
    · simp only [List.length_append, List.length_cons, descTails_length, hpoollen, hlt]
      omega
    · intro i hi
      rcases Nat.lt_or_ge i c with h2 | h2
      · rcases inv.hfe i (by omega) with h3 | h3
        · left
          rw [(hbelow i h2).1, (hbelow i h2).2]
          exact h3
        · right
          rw [(hbelow i h2).1]
          exact h3
      · left
        exact hfullge i h2 hi
  have hgtc : s.state.getD c 0 <
      (s.state.take c ++ (canonicalRem s.state c).getLast hKne ::
        (sortDesc ((s.state.drop c).erase
          ((canonicalRem s.state c).getLast hKne))).reverse).getD c 0 := by
    rw [stepped_getD rfl (le_of_lt hc_st)]
    exact hmemK.2
  refine ⟨out0, _, hnext, hout0, rfl, rfl, hst, hst'perm, hinv', hcl,
    stepped_take rfl (le_of_lt hc_st), stepped_lexLt rfl rfl hc_st hem hmemK.2,
    hgtc, hfullge, hbelow, ?_⟩
  intro m hcm hcanm t ht hlt2 hdiff
  exact stepped_minimal inv.hperm hnd hc_st hKne rfl rfl rfl hcm
    (fun i h1 h2 h3 => hcanm i h1 h2 (by rw [← inv.hstate]; exact h3)) ht hlt2 hdiff

/-! ## Theorems: running the permutator to exhaustion -/

theorem first_emit {T : Type} {s : TreePermutator T} (inv : PermInv s)
    (hf : s.started = false) :
    ∃ out, getAll s.data s.state = some out
      ∧ s.next = .emit out { s with started := true } := by
  obtain ⟨out, hout⟩ := getAll_some s.data s.state
    (fun i hi => by rw [inv.hdata]; exact state_mem_lt inv hi)
  refine ⟨out, hout, ?_⟩
  simp only [TreePermutator.next, hf, if_true, hout]

theorem next_not_panic {T : Type} {s : TreePermutator T} (inv : PermInv s) :
    s.next ≠ .panic := by
  by_cases hst : s.started = true
  · cases hc : lastNonempty s.remaining with
    | none =>
      have hnext : s.next = .exhausted := by
        simp only [TreePermutator.next, hst, Bool.true_eq_false, if_false, hc]
      simp [hnext]
    | some c =>
      obtain ⟨out, s', hnext, _⟩ := advance inv hst hc
      simp [hnext]
  · have hf : s.started = false := by simpa using hst
    obtain ⟨out, _, hnext⟩ := first_emit inv hf
    simp [hnext]

theorem next_inv {T : Type} {s : TreePermutator T} (inv : PermInv s) :
    ∀ {out : List T} {s' : TreePermutator T}, s.next = .emit out s' → PermInv s' := by
  intro out s' h
  by_cases hst : s.started = true
  · cases hc : lastNonempty s.remaining with
    | none =>
      have hnext : s.next = .exhausted := by
        simp only [TreePermutator.next, hst, Bool.true_eq_false, if_false, hc]
      rw [hnext] at h
      exact NextRes.noConfusion h
    | some c =>
      obtain ⟨out2, s2, hnext, _, _, _, _, _, hinv, _⟩ := advance inv hst hc
      rw [hnext] at h
      injection h with h1 h2
      rw [← h2]
      exact hinv
  · have hf : s.started = false := by simpa using hst
    obtain ⟨out2, _, hnext⟩ := first_emit inv hf
    rw [hnext] at h
    injection h with h1 h2
    rw [← h2]
    exact ⟨inv.hdata, inv.hstate, inv.hrem, inv.hperm, inv.hfe⟩

theorem lexLt_false_of_countAbove_zero {st : List Nat} {n : Nat}
    (hz : countAbove st n = 0) :
    ∀ t, t.Perm (List.range n) → lexLt st t = false := by
  intro t ht
  have hf : (List.range n).permutations.filter (fun t => lexLt st t) = [] :=
    List.length_eq_zero.mp hz
  cases h : lexLt st t with
  | false => rfl
  | true =>
    exfalso
    have hm : t ∈ (List.range n).permutations.filter (fun t => lexLt st t) :=
      List.mem_filter.mpr ⟨List.mem_permutations.mpr ht, h⟩
    rw [hf] at hm
    simp at hm

theorem countAbove_zero_of_lexLt_false {st : List Nat} {n : Nat}
    (h : ∀ t, t.Perm (List.range n) → lexLt st t = false) :
    countAbove st n = 0 := by
  unfold countAbove
  rw [List.length_eq_zero, List.filter_eq_nil]
  intro t htm
  rw [h t (List.mem_permutations.mp htm)]
  simp

theorem countAbove_succ {st st' : List Nat} {n : Nat}
    (hmem : st'.Perm (List.range n)) (hgt : lexLt st st' = true)
    (hmin : ∀ t, t.Perm (List.range n) → lexLt st t = true →
      t = st' ∨ lexLt st' t = true) :
    countAbove st n = countAbove st' n + 1 := by
  unfold countAbove
  have hnd : (List.range n).permutations.Nodup :=
    List.nodup_permutations _ (List.nodup_range n)
  have hstmem : st' ∈ (List.range n).permutations := List.mem_permutations.mpr hmem
  have hperm2 : ((List.range n).permutations.filter (fun t => lexLt st t)).Perm
      (st' :: (List.range n).permutations.filter (fun t => lexLt st' t)) := by
    apply (List.perm_ext_iff_of_nodup (hnd.filter _) ?_).mpr
    · intro x
      simp only [List.mem_filter, List.mem_cons]
      constructor
      · intro hx
        rcases hmin x (List.mem_permutations.mp hx.1) hx.2 with h | h
        · exact Or.inl h
        · exact Or.inr ⟨hx.1, h⟩
      · intro hx
        rcases hx with h | hx
        · subst h
          exact ⟨hstmem, hgt⟩
        · exact ⟨hx.1, lexLt_trans _ _ _ hgt hx.2⟩
    · rw [List.nodup_cons]
      refine ⟨?_, hnd.filter _⟩
      intro hmem2
      have h2 := (List.mem_filter.mp hmem2).2
      rw [lexLt_irrefl] at h2
      exact Bool.noConfusion h2
  have h3 := hperm2.length_eq
  simpa using h3

theorem exhausted_max {T : Type} {s : TreePermutator T} (full : PermFull s)
    (hc : lastNonempty s.remaining = none) :
    countAbove s.state s.len = 0 := by
  have hcanempty : ∀ i, i < s.len → canonicalRem s.state i = [] := by
    intro i hi
    rw [← full.hfull i hi]
    have hmem : s.remaining.getD i [] ∈ s.remaining := by
      have hib : i < s.remaining.length := by
        rw [full.toPermInv.hrem]
        exact hi
      rw [List.getD_eq_getElem s.remaining [] hib]
      exact List.getElem_mem hib
    exact lastNonempty_none hc _ hmem
  apply countAbove_zero_of_lexLt_false
  intro t ht
  cases h : lexLt s.state t with
  | false => rfl
  | true =>
    exfalso
    have hlen_st : s.state.length = s.len := full.toPermInv.hstate
    have hlen_t : t.length = s.len := by
      rw [ht.length_eq]
      simp
    have htake := no_bigger_diff (m := s.len) full.toPermInv.hperm
      (fun i _ hilt => hcanempty i (by omega)) t ht h
    have hteq : t = s.state := by
      rw [← List.take_all_of_le (le_of_eq hlen_t), ← List.take_all_of_le (le_of_eq hlen_st)]
      exact htake
    rw [hteq, lexLt_irrefl] at h
    exact Bool.noConfusion h

theorem runFull {T : Type} : ∀ (fuel : Nat) (s : TreePermutator T),
    PermFull s → s.started = true → countAbove s.state s.len ≤ fuel →
    (∀ t, t ∈ runIdx fuel s ↔ (t.Perm (List.range s.len) ∧ lexLt s.state t = true))
    ∧ List.Chain' (fun a b => lexLt a b = true) (s.state :: runIdx fuel s)
    ∧ (runIdx fuel s).length = countAbove s.state s.len := by
  intro fuel
  induction fuel with
  | zero =>
    intro s full hst hfc
    have hz : countAbove s.state s.len = 0 := by omega
    refine ⟨?_, by simp [runIdx], by simp [runIdx, hz]⟩
    intro t
    simp only [runIdx]
    constructor
    · intro h
      simp at h
    · intro ⟨ht, hlt⟩
      have := lexLt_false_of_countAbove_zero hz t ht
      rw [this] at hlt
      exact Bool.noConfusion hlt
  | succ fuel ih =>
    intro s full hst hfc
    cases hc : lastNonempty s.remaining with
    | none =>
      have hnext : s.next = .exhausted := by
        simp only [TreePermutator.next, hst, Bool.true_eq_false, if_false, hc]
      have hrun : runIdx (fuel + 1) s = [] := by
        simp [runIdx, hnext]
      have hz := exhausted_max full hc
      refine ⟨?_, by simp [hrun], by simp [hrun, hz]⟩
      intro t
      rw [hrun]
      constructor
      · intro h
        simp at h
      · intro ⟨ht, hlt⟩
        have := lexLt_false_of_countAbove_zero hz t ht
        rw [this] at hlt
        exact Bool.noConfusion hlt
    | some c =>
      obtain ⟨out, s', hnext, hout, hdata, hlen, hsta, hperm', hinv', hcl, htake, hlx,
        _, hfull_ge, hbelow, hmin⟩ := advance full.toPermInv hst hc
      have hfull' : PermFull s' := by
        refine ⟨hinv', ?_⟩
        intro i hi2
        rcases Nat.lt_or_ge i c with h2 | h2
        · rw [(hbelow i h2).1, (hbelow i h2).2]
          exact full.hfull i (by omega)
        · exact hfull_ge i h2 (by rw [← hlen]; exact hi2)
      have hempty_above : ∀ i, c < i → i < s.len → canonicalRem s.state i = [] := by
        intro i h1 h2
        rw [← full.hfull i h2]
        exact (lastNonempty_some hc).2.2 i h1 (by rw [full.toPermInv.hrem]; exact h2)
      have hlen_st : s.state.length = s.len := full.toPermInv.hstate
      have hminG : ∀ t, t.Perm (List.range s.len) → lexLt s.state t = true →
          t = s'.state ∨ lexLt s'.state t = true := by
        intro t ht hlt
        apply hmin s.len hcl (fun i h1 h2 _ => hempty_above i h1 h2) t ht hlt
        intro hdiff
        have hlen_t : t.length = s.len := by
          rw [ht.length_eq]
          simp
        have hteq : t = s.state := by
          rw [← List.take_all_of_le (le_of_eq hlen_t),
            ← List.take_all_of_le (le_of_eq hlen_st)]
          exact hdiff
        rw [hteq, lexLt_irrefl] at hlt
        exact Bool.noConfusion hlt
      have hcount : countAbove s.state s.len = countAbove s'.state s.len + 1 :=
        countAbove_succ hperm' hlx hminG
      have hrun : runIdx (fuel + 1) s = s'.state :: runIdx fuel s' := by
        simp [runIdx, hnext]
      have hfc' : countAbove s'.state s'.len ≤ fuel := by
        rw [hlen]
        omega
      obtain ⟨ihmem, ihchain, ihlen⟩ := ih s' hfull' hsta hfc'
      rw [hlen] at ihmem ihlen
      refine ⟨?_, ?_, ?_⟩
      · intro t
        rw [hrun]
        simp only [List.mem_cons]
        constructor
        · intro h
          rcases h with h | h
          · subst h
            exact ⟨hperm', hlx⟩
          · obtain ⟨h1, h2⟩ := (ihmem t).mp h
            exact ⟨h1, lexLt_trans _ _ _ hlx h2⟩
        · intro ⟨h1, h2⟩
          rcases hminG t h1 h2 with h | h
          · exact Or.inl h
          · exact Or.inr ((ihmem t).mpr ⟨h1, h⟩)
      · rw [hrun]
        exact List.chain'_cons.mpr ⟨hlx, ihchain⟩
      · rw [hrun]
        simp only [List.length_cons]
        rw [ihlen]
        omega

theorem countAbove_init (n : Nat) :
    countAbove (List.range n) n = n.factorial - 1 := by
  unfold countAbove
  have hnd : (List.range n).permutations.Nodup :=
    List.nodup_permutations _ (List.nodup_range n)
  have hmem : List.range n ∈ (List.range n).permutations :=
    List.mem_permutations.mpr (List.Perm.refl _)
  have hsorted : (List.range n).Sorted (fun a b => a < b) := List.pairwise_lt_range n
  have hperm : ((List.range n).permutations.filter
      (fun t => lexLt (List.range n) t)).Perm
      ((List.range n).permutations.erase (List.range n)) := by
    apply (List.perm_ext_iff_of_nodup (hnd.filter _)
      (hnd.sublist (List.erase_sublist _ _))).mpr
    intro x
    rw [List.mem_filter, hnd.mem_erase_iff]
    constructor
    · intro hx
      refine ⟨?_, hx.1⟩
      intro he
      have h2 := hx.2
      rw [he, lexLt_irrefl] at h2
      exact Bool.noConfusion h2
    · intro hx
      refine ⟨hx.2, ?_⟩
      rcases sorted_lt_lex_min hsorted (List.mem_permutations.mp hx.2) with h | h
      · exact absurd h hx.1
      · exact h
  rw [hperm.length_eq, List.length_erase_of_mem hmem, List.length_permutations,
    List.length_range]

theorem runIdx_fuel_ge {T : Type} {s : TreePermutator T} (full : PermFull s)
    (hst : s.started = true) {f1 f2 : Nat}
    (h1 : countAbove s.state s.len ≤ f1) (h2 : countAbove s.state s.len ≤ f2) :
    runIdx f1 s = runIdx f2 s := by
  haveI : IsTrans (List Nat) (fun a b => lexLt a b = true) :=
    ⟨fun a b c hab hbc => lexLt_trans a b c hab hbc⟩
  haveI : IsAntisymm (List Nat) (fun a b => lexLt a b = true) :=
    ⟨fun a b hab hba => by
      rw [lexLt_asymm hab] at hba
      exact Bool.noConfusion hba⟩
  obtain ⟨m1, c1, l1⟩ := runFull f1 s full hst h1
  obtain ⟨m2, c2, l2⟩ := runFull f2 s full hst h2
  have hs1 : (runIdx f1 s).Sorted (fun a b => lexLt a b = true) :=
    (List.pairwise_cons.mp (List.chain'_iff_pairwise.mp c1)).2
  have hs2 : (runIdx f2 s).Sorted (fun a b => lexLt a b = true) :=
    (List.pairwise_cons.mp (List.chain'_iff_pairwise.mp c2)).2
  have hnd1 : (runIdx f1 s).Nodup := hs1.imp (fun h => lexLt_ne h)
  have hnd2 : (runIdx f2 s).Nodup := hs2.imp (fun h => lexLt_ne h)
  have hperm : (runIdx f1 s).Perm (runIdx f2 s) := by
    apply (List.perm_ext_iff_of_nodup hnd1 hnd2).mpr
    intro x
    rw [m1 x, m2 x]
  exact List.eq_of_perm_of_sorted hperm hs1 hs2

theorem getAll_eq {T : Type} (data : List T) : ∀ (idxs : List Nat),
    (∀ i ∈ idxs, i < data.length) →
    getAll data idxs = some (idxs.filterMap (fun i => data[i]?)) := by
  intro idxs
  induction idxs with
  | nil => intro _; rfl
  | cons i is ih =>
    intro h
    have hi : i < data.length := h i (by simp)
    have hx : data[i]? = some data[i] := List.getElem?_eq_getElem hi
    simp only [getAll, hx, ih (fun j hj => h j (by simp [hj])), List.filterMap_cons]

theorem next_emit_all {T : Type} {s : TreePermutator T} (inv : PermInv s) :
    ∀ {out : List T} {s' : TreePermutator T}, s.next = .emit out s' →
      s'.data = s.data ∧ s'.len = s.len ∧ s'.started = true ∧ PermInv s'
      ∧ getAll s.data s'.state = some out := by
  intro out s' h
  by_cases hst : s.started = true
  · cases hc : lastNonempty s.remaining with
    | none =>
      have hnext : s.next = .exhausted := by
        simp only [TreePermutator.next, hst, Bool.true_eq_false, if_false, hc]
      rw [hnext] at h
      exact NextRes.noConfusion h
    | some c =>
      obtain ⟨out2, s2, hnext, hout, hdata, hlen, hsta, _, hinv, _⟩ :=
        advance inv hst hc
      rw [hnext] at h
      injection h with h1 h2
      subst h1
      subst h2
      exact ⟨hdata, hlen, hsta, hinv, hout⟩
  · have hf : s.started = false := by simpa using hst
    obtain ⟨out2, hout, hnext⟩ := first_emit inv hf
    rw [hnext] at h
    injection h with h1 h2
    subst h1
    subst h2
    exact ⟨rfl, rfl, rfl, ⟨inv.hdata, inv.hstate, inv.hrem, inv.hperm, inv.hfe⟩, hout⟩

theorem runOut_eq_map {T : Type} : ∀ (fuel : Nat) (s : TreePermutator T), PermInv s →
    runOut fuel s = (runIdx fuel s).map (fun t => t.filterMap (fun i => s.data[i]?)) := by
  intro fuel
  induction fuel with
  | zero => intro s _; rfl
  | succ fuel ih =>
    intro s inv
    cases hnext : s.next with
    | panic => exact absurd hnext (next_not_panic inv)
    | exhausted => simp [runOut, runIdx, hnext]
    | emit out s' =>
      obtain ⟨hdata, hlen, hsta, hinv, hout⟩ := next_emit_all inv hnext
      have hmem : ∀ i ∈ s'.state, i < s.data.length := by
        intro i hi
        rw [inv.hdata]
        have h2 := hinv.hperm.subset hi
        rw [List.mem_range] at h2
        omega
      have hout2 : out = s'.state.filterMap (fun i => s.data[i]?) := by
        rw [getAll_eq s.data s'.state hmem] at hout
        exact (Option.some.inj hout).symm
      simp only [runOut, runIdx, hnext, List.map_cons]
      rw [hout2, ih s' hinv, hdata]

theorem filterMap_range_eq_take {T : Type} (data : List T) :
    ∀ n, n ≤ data.length →
    (List.range n).filterMap (fun i => data[i]?) = data.take n := by
  intro n
  induction n with
  | zero =>
    intro _
    simp
  | succ n ih =>
    intro h
    have hn : n < data.length := by omega
    rw [List.range_succ, List.filterMap_append, ih (by omega), List.take_succ]
    simp [List.filterMap_cons, List.getElem?_eq_getElem hn]

theorem filterMap_get_range {T : Type} (data : List T) :
    (List.range data.length).filterMap (fun i => data[i]?) = data := by
  rw [filterMap_range_eq_take data data.length le_rfl, List.take_length]

theorem filterMap_all_some {T : Type} (f : Nat → Option T) :
    ∀ (t : List Nat), (∀ j ∈ t, (f j).isSome) →
      (t.filterMap f).length = t.length
      ∧ ∀ i (h : i < t.length), (t.filterMap f)[i]? = f t[i] := by
  intro t
  induction t with
  | nil =>
    intro _
    exact ⟨rfl, fun i h => absurd h (by simp)⟩
  | cons j js ih =>
    intro h
    obtain ⟨x, hx⟩ := Option.isSome_iff_exists.mp (h j (by simp))
    obtain ⟨ihl, ihg⟩ := ih (fun a ha => h a (by simp [ha]))
    refine ⟨?_, ?_⟩
    · simp [List.filterMap_cons, hx, ihl]
    · intro i hi
      cases i with
      | zero => simp [List.filterMap_cons, hx]
      | succ i =>
        simp only [List.filterMap_cons, hx, List.getElem?_cons_succ,
          List.getElem_cons_succ]
        exact ihg i (by simpa using hi)

theorem map_getD_range (l : List Nat) :
    (List.range l.length).map (fun i => l.getD i 0) = l := by
  apply List.ext_getElem
  · simp
  · intro i h1 h2
    simp only [List.getElem_map, List.getElem_range]
    exact List.getD_eq_getElem l 0 h2

theorem perm_reindex {T : Type} :
    ∀ {l₁ l₂ : List T}, l₁.Perm l₂ →
    ∃ t : List Nat, t.Perm (List.range l₂.length)
      ∧ t.filterMap (fun i => l₂[i]?) = l₁ := by
  intro l₁ l₂ h
  induction h with
  | nil => exact ⟨[], by simp, rfl⟩
  | cons x h ih =>
    rename_i la lb
    obtain ⟨t₀, hp, hf⟩ := ih
    refine ⟨0 :: t₀.map (fun i => i + 1), ?_, ?_⟩
    · rw [List.length_cons, List.range_succ_eq_map]
      exact List.Perm.cons 0 (hp.map (fun i => i + 1))
    · rw [List.filterMap_cons]
      simp only [List.getElem?_cons_zero]
      rw [List.filterMap_map]
      have hcomp : ((fun i => (x :: lb)[i]?) ∘ (fun i => i + 1)) =
          (fun i => lb[i]?) := by
        funext i
        simp
      rw [hcomp, hf]
  | swap x y l =>
    have h2 : (List.range (l.length + 1 + 1)).Perm
        (1 :: 0 :: (List.range l.length).map (fun i => i + 2)) := by
      rw [List.range_succ_eq_map, List.range_succ_eq_map, List.map_cons, List.map_map]
      exact List.Perm.swap 1 0 _
    refine ⟨1 :: 0 :: (List.range l.length).map (fun i => i + 2), ?_, ?_⟩
    · simp only [List.length_cons]
      exact h2.symm
    · rw [List.filterMap_cons, List.filterMap_cons]
      simp only [List.getElem?_cons_succ, List.getElem?_cons_zero]
      rw [List.filterMap_map]
      have hcomp : ((fun i => (x :: y :: l)[i]?) ∘ (fun i => i + 2)) =
          (fun i => l[i]?) := by
        funext i
        simp
      rw [hcomp, filterMap_get_range]
  | trans h₁ h₂ ih₁ ih₂ =>
    rename_i la lb lc
    obtain ⟨t₁, hp₁, hf₁⟩ := ih₁
    obtain ⟨t₂, hp₂, hf₂⟩ := ih₂
    have hall : ∀ j ∈ t₂, ((fun i => lc[i]?) j).isSome := by
      intro j hj
      have hjr := hp₂.subset hj
      rw [List.mem_range] at hjr
      simp [List.getElem?_eq_getElem hjr]
    obtain ⟨hlen, hget⟩ := filterMap_all_some _ t₂ hall
    have ht₂len : t₂.length = lb.length := by
      rw [← hf₂]
      exact hlen.symm
    refine ⟨t₁.map (fun i => t₂.getD i 0), ?_, ?_⟩
    · have hm := hp₁.map (fun i => t₂.getD i 0)
      have heq : (List.range lb.length).map (fun i => t₂.getD i 0) = t₂ := by
        rw [← ht₂len]
        exact map_getD_range t₂
      rw [heq] at hm
      exact hm.trans hp₂
    · rw [List.filterMap_map]
      have hcg : ∀ i ∈ t₁, ((fun i => lc[i]?) ∘ (fun i => t₂.getD i 0)) i =
          (fun i => lb[i]?) i := by
        intro i hi
        have hir := hp₁.subset hi
        rw [List.mem_range] at hir
        have hit : i < t₂.length := by omega
        simp only [Function.comp]
        rw [List.getD_eq_getElem t₂ 0 hit]
        have hpt := hget i hit
        rw [hf₂] at hpt
        exact hpt.symm
      rw [List.filterMap_congr hcg]
      exact hf₁

theorem runIdx_succ {T : Type} (fuel : Nat) (s : TreePermutator T) {out : List T}
    {s' : TreePermutator T} (h : s.next = .emit out s') :
    runIdx (fuel + 1) s = s'.state :: runIdx fuel s' := by
  simp only [runIdx, h]

/-- **C6**: iterating the freshly constructed tree permutator over an input of
length `n` without any `fail_pos` call emits exactly `n!` index sequences; they
are precisely the permutations of `0 … n-1`, emitted in strictly increasing
lexicographic order starting from the identity; the emitted data sequences are
the index-images of those sequences, they are exactly the permutations of the
input, the first one is the (sorted) input itself, and any larger fuel yields
the same run (the iterator is exhausted after `n!` emissions). -/
theorem C6_permutator_enumeration {T : Type} (data : List T) :
    (runIdx data.length.factorial (TreePermutator.new data)).length
        = data.length.factorial
    ∧ (∀ t, t ∈ runIdx data.length.factorial (TreePermutator.new data) ↔
        t.Perm (List.range data.length))
    ∧ List.Chain' (fun a b => lexLt a b = true)
        (runIdx data.length.factorial (TreePermutator.new data))
    ∧ (runIdx data.length.factorial (TreePermutator.new data)).head?
        = some (List.range data.length)
    ∧ runOut data.length.factorial (TreePermutator.new data)
        = (runIdx data.length.factorial (TreePermutator.new data)).map
            (fun t => t.filterMap (fun i => data[i]?))
    ∧ (∀ l, l ∈ runOut data.length.factorial (TreePermutator.new data) ↔
        l.Perm data)
    ∧ (runOut data.length.factorial (TreePermutator.new data)).head? = some data
    ∧ (∀ fuel, data.length.factorial ≤ fuel →
        runIdx fuel (TreePermutator.new data)
          = runIdx data.length.factorial (TreePermutator.new data)) := by
  have inv₀ : PermInv (TreePermutator.new data) := (new_full data).toPermInv
  obtain ⟨out0, hout0, hnext0⟩ := first_emit inv₀ rfl
  have full₁ : PermFull ({ TreePermutator.new data with started := true } :
      TreePermutator T) :=
    ⟨⟨(new_full data).hdata, (new_full data).hstate, (new_full data).hrem,
      (new_full data).hperm, (new_full data).hfe⟩, (new_full data).hfull⟩
  obtain ⟨hmem, hchain, hlenrun⟩ := runFull (data.length.factorial - 1)
    ({ TreePermutator.new data with started := true }) full₁ rfl
    (le_of_eq (countAbove_init data.length))
  have hmemT : ∀ t, t ∈ runIdx (data.length.factorial - 1)
      ({ TreePermutator.new data with started := true } : TreePermutator T) ↔
      t.Perm (List.range data.length) ∧ lexLt (List.range data.length) t = true :=
    hmem
  have hchainT : List.Chain' (fun a b => lexLt a b = true)
      (List.range data.length :: runIdx (data.length.factorial - 1)
        ({ TreePermutator.new data with started := true } : TreePermutator T)) :=
    hchain
  have hlenT : (runIdx (data.length.factorial - 1)
      ({ TreePermutator.new data with started := true } :
        TreePermutator T)).length = data.length.factorial - 1 := by
    rw [hlenrun]
    exact countAbove_init data.length
  have hfact : data.length.factorial - 1 + 1 = data.length.factorial := by
    have := Nat.factorial_pos data.length
    omega
  have hrun : runIdx data.length.factorial (TreePermutator.new data)
      = List.range data.length :: runIdx (data.length.factorial - 1)
        ({ TreePermutator.new data with started := true } : TreePermutator T) := by
    rw [← hfact, runIdx_succ _ _ hnext0]
    rfl
  have hmem' : ∀ t, t ∈ runIdx data.length.factorial (TreePermutator.new data) ↔
      t.Perm (List.range data.length) := by
    intro t
    rw [hrun, List.mem_cons]
    constructor
    · intro h
      rcases h with h | h
      · subst h
        exact List.Perm.refl _
      · exact ((hmemT t).mp h).1
    · intro h
      rcases sorted_lt_lex_min (List.pairwise_lt_range _) h with he | hlt
      · exact Or.inl he
      · exact Or.inr ((hmemT t).mpr ⟨h, hlt⟩)
  have hrunoutT : runOut data.length.factorial (TreePermutator.new data)
      = (runIdx data.length.factorial (TreePermutator.new data)).map
          (fun t => t.filterMap (fun i => data[i]?)) :=
    runOut_eq_map data.length.factorial (TreePermutator.new data) inv₀
  have houts : ∀ l, l ∈ runOut data.length.factorial (TreePermutator.new data) ↔
      l.Perm data := by
    intro l
    rw [hrunoutT, List.mem_map]
    constructor
    · intro hl
      obtain ⟨t, ht, hl⟩ := hl
      have hperm := ((hmem' t).mp ht).filterMap (fun i => data[i]?)
      rw [filterMap_get_range] at hperm
      rw [← hl]
      exact hperm
    · intro h
      obtain ⟨t, htp, htf⟩ := perm_reindex h
      exact ⟨t, (hmem' t).mpr htp, htf⟩
  refine ⟨?_, hmem', ?_, ?_, hrunoutT, houts, ?_, ?_⟩
  · rw [hrun, List.length_cons, hlenT]
    exact hfact
  · rw [hrun]
    exact hchainT
  · rw [hrun]
    rfl
  · rw [hrunoutT, hrun]
    simp only [List.map_cons, List.head?_cons, filterMap_get_range]
  · intro fuel hf
    have hf1 : fuel - 1 + 1 = fuel := by
      have := Nat.factorial_pos data.length
      omega
    rw [hrun, ← hf1, runIdx_succ _ _ hnext0]
    congr 1
    have hc2 : countAbove ({ TreePermutator.new data with started := true } :
        TreePermutator T).state
        ({ TreePermutator.new data with started := true } :
          TreePermutator T).len = data.length.factorial - 1 :=
      countAbove_init data.length
    apply runIdx_fuel_ge full₁ rfl
    · rw [hc2]
      omega
    · rw [hc2]

/-- Concrete instantiation of the C6 enumeration theorem on a two-element
input. -/
theorem C6_permutator_enumeration_witness :
    (runIdx (Nat.factorial 2) (TreePermutator.new ([10, 20] : List Nat))).length
      = Nat.factorial 2 :=
  (C6_permutator_enumeration [10, 20]).1

/-! ## Theorems: pruning (claim C7) -/

theorem countAbove_lt_of_lexLt {st st' : List Nat} {n : Nat}
    (hmem : st'.Perm (List.range n)) (h : lexLt st st' = true) :
    countAbove st' n < countAbove st n := by
  unfold countAbove
  have hnd : (List.range n).permutations.Nodup :=
    List.nodup_permutations _ (List.nodup_range n)
  have hsub : (st' :: (List.range n).permutations.filter
      (fun t => lexLt st' t)).Subperm
      ((List.range n).permutations.filter (fun t => lexLt st t)) := by
    apply List.Nodup.subperm
    · rw [List.nodup_cons]
      refine ⟨?_, hnd.filter _⟩
      intro hmem2
      have h2 := (List.mem_filter.mp hmem2).2
      rw [lexLt_irrefl] at h2
      exact Bool.noConfusion h2
    · intro x hx
      rcases List.mem_cons.mp hx with h2 | h2
      · subst h2
        exact List.mem_filter.mpr ⟨List.mem_permutations.mpr hmem, h⟩
      · have h3 := List.mem_filter.mp h2
        exact List.mem_filter.mpr ⟨h3.1, lexLt_trans _ _ _ h h3.2⟩
  have h4 := hsub.length_le
  simp only [List.length_cons] at h4
  omega

theorem runIdx_mono {T : Type} : ∀ (f f' : Nat), f ≤ f' →
    ∀ (s : TreePermutator T) (t : List Nat), t ∈ runIdx f s → t ∈ runIdx f' s := by
  intro f
  induction f with
  | zero =>
    intro f' _ s t ht
    simp [runIdx] at ht
  | succ f ih =>
    intro f' hf s t ht
    obtain ⟨k, rfl⟩ : ∃ k, f' = k + 1 := ⟨f' - 1, by omega⟩
    cases hnext : s.next with
    | panic =>
      simp only [runIdx, hnext] at ht
      simp at ht
    | exhausted =>
      simp only [runIdx, hnext] at ht
      simp at ht
    | emit out s' =>
      rw [runIdx_succ f s hnext, List.mem_cons] at ht
      rw [runIdx_succ k s hnext, List.mem_cons]
      rcases ht with h | h
      · exact Or.inl h
      · exact Or.inr (ih k (by omega) s' t h)

theorem failPos_c_le {T : Type} {s : TreePermutator T} (inv : PermInv s) {p c : Nat}
    (hc : lastNonempty (s.failPos p).remaining = some c) : c ≤ p := by
  obtain ⟨hcb, hcne, _⟩ := lastNonempty_some hc
  by_contra hgt
  apply hcne
  have hcb' : c < s.remaining.length := by
    rw [← failPos_remaining_length s p]
    exact hcb
  rw [failPos_remaining_getD s p c hcb']
  rw [if_pos ⟨by omega, by rw [← inv.hrem]; exact hcb'⟩]

theorem failPos_canonical_empty {T : Type} {s : TreePermutator T} (full : PermFull s)
    {p c : Nat} (hc : lastNonempty (s.failPos p).remaining = some c) :
    ∀ i, c < i → i ≤ p → i < s.len → canonicalRem s.state i = [] := by
  intro i h1 h2 h3
  obtain ⟨hcb, hcne, hemp⟩ := lastNonempty_some hc
  have hi' : i < s.remaining.length := by
    rw [full.toPermInv.hrem]
    exact h3
  have h4 := hemp i h1 (by rw [failPos_remaining_length]; exact hi')
  rw [failPos_remaining_getD s p i hi',
    if_neg (by rintro ⟨ha, _⟩; omega)] at h4
  rw [← full.hfull i h3]
  exact h4

theorem failPos_none_canonical {T : Type} {s : TreePermutator T} (full : PermFull s)
    {p : Nat} (hc : lastNonempty (s.failPos p).remaining = none) :
    ∀ i, i ≤ p → i < s.len → canonicalRem s.state i = [] := by
  intro i h2 h3
  have hi' : i < s.remaining.length := by
    rw [full.toPermInv.hrem]
    exact h3
  have hi2 : i < (s.failPos p).remaining.length := by
    rw [failPos_remaining_length]
    exact hi'
  have hmem : (s.failPos p).remaining.getD i [] ∈ (s.failPos p).remaining := by
    rw [List.getD_eq_getElem _ [] hi2]
    exact List.getElem_mem hi2
  have h4 := lastNonempty_none hc _ hmem
  rw [failPos_remaining_getD s p i hi',
    if_neg (by rintro ⟨ha, _⟩; omega)] at h4
  rw [← full.hfull i h3]
  exact h4

/-- **C7** (corrected): after `fail_pos(p)` on a reachable un-pruned machine,
the immediately following `next()` backtracks to a change position `c ≤ p`
(conjunct 1); no output ever emitted afterwards shares the length-`(p+1)`
index prefix with the state current at pruning time (conjunct 2); and with
sufficient fuel the remaining run is exactly the set of permutations
lexicographically above the current state whose `(p+1)`-prefix differs,
still emitted in increasing lexicographic order (conjunct 3).  The claim's
statement that *all* later calls backtrack past depth `p` is refuted by
`C7_counterexample`. -/
theorem C7_pruning {T : Type} {s : TreePermutator T} (full : PermFull s)
    (hst : s.started = true) (p : Nat) :
    (∀ c, lastNonempty (s.failPos p).remaining = some c → c ≤ p)
    ∧ (∀ fuel t, t ∈ runIdx fuel (s.failPos p) →
        t.take (p + 1) ≠ s.state.take (p + 1))
    ∧ (∀ fuel, countAbove s.state s.len ≤ fuel →
        (∀ t, t ∈ runIdx fuel (s.failPos p) ↔
          (t.Perm (List.range s.len) ∧ lexLt s.state t = true
            ∧ t.take (p + 1) ≠ s.state.take (p + 1)))
        ∧ List.Chain' (fun a b => lexLt a b = true)
            (s.state :: runIdx fuel (s.failPos p))) := by
  have inv := full.toPermInv
  have invp : PermInv (s.failPos p) := failPos_inv inv p
  have hstp : (s.failPos p).started = true := hst
  have main : ∀ fuel, countAbove s.state s.len ≤ fuel →
      (∀ t, t ∈ runIdx fuel (s.failPos p) ↔
        (t.Perm (List.range s.len) ∧ lexLt s.state t = true
          ∧ t.take (p + 1) ≠ s.state.take (p + 1)))
      ∧ List.Chain' (fun a b => lexLt a b = true)
          (s.state :: runIdx fuel (s.failPos p)) := by
    intro fuel hfuel
    cases hc : lastNonempty (s.failPos p).remaining with
    | none =>
      have hempty : runIdx fuel (s.failPos p) = [] := by
        cases fuel with
        | zero => rfl
        | succ f =>
          have hnext : (s.failPos p).next = .exhausted := by
            simp only [TreePermutator.next, hstp, Bool.true_eq_false, if_false, hc]
          simp [runIdx, hnext]
      rw [hempty]
      refine ⟨?_, by simp⟩
      intro t
      simp only [List.not_mem_nil, false_iff]
      rintro ⟨ht, hlt, hne⟩
      apply hne
      apply no_bigger_diff (m := p + 1) inv.hperm ?_ t ht hlt
      intro i h1 h2
      exact failPos_none_canonical full hc i (by omega)
        (by rw [← inv.hstate]; omega)
    | some c =>
      have hcle : c ≤ p := failPos_c_le inv hc
      obtain ⟨out, s', hnext, hout, hdata, hlen, hsta, hperm', hinv', hcl, htake,
        hlx, hgtc, hfull_ge, hbelow, hmin⟩ := advance invp hstp hc
      replace hout : getAll s.data s'.state = some out := hout
      replace hdata : s'.data = s.data := hdata
      replace hlen : s'.len = s.len := hlen
      replace hperm' : s'.state.Perm (List.range s.len) := hperm'
      replace hcl : c < s.len := hcl
      replace htake : s'.state.take c = s.state.take c := htake
      replace hlx : lexLt s.state s'.state = true := hlx
      replace hgtc : s.state.getD c 0 < s'.state.getD c 0 := hgtc
      replace hfull_ge : ∀ i, c ≤ i → i < s.len →
          s'.remaining.getD i [] = canonicalRem s'.state i := hfull_ge
      replace hbelow : ∀ i, i < c →
          s'.remaining.getD i [] = (s.failPos p).remaining.getD i []
          ∧ canonicalRem s'.state i = canonicalRem s.state i := hbelow
      replace hmin : ∀ m, c < m →
          (∀ i, c < i → i < m → i < s.len → canonicalRem s.state i = []) →
          ∀ t, t.Perm (List.range s.len) → lexLt s.state t = true →
            t.take m ≠ s.state.take m → t = s'.state ∨ lexLt s'.state t = true :=
        hmin
      have hfull' : PermFull s' := by
        refine ⟨hinv', ?_⟩
        intro i hi2
        rcases Nat.lt_or_ge i c with h2 | h2
        · rw [(hbelow i h2).1, (hbelow i h2).2]
          have hil : i < s.len := by omega
          have hi' : i < s.remaining.length := by
            rw [inv.hrem]
            exact hil
          rw [failPos_remaining_getD s p i hi',
            if_neg (by rintro ⟨ha, _⟩; omega)]
          exact full.hfull i hil
        · exact hfull_ge i h2 (by omega)
      have hminG : ∀ t, t.Perm (List.range s.len) → lexLt s.state t = true →
          t.take (p + 1) ≠ s.state.take (p + 1) →
          t = s'.state ∨ lexLt s'.state t = true := by
        intro t ht hlt hdiff
        apply hmin (p + 1) (by omega) ?_ t ht hlt hdiff
        intro i h1 h2 h3
        exact failPos_canonical_empty full hc i h1 (by omega) h3
      have hclt : c < s.state.length := by
        rw [inv.hstate]
        omega
      have hclt' : c < s'.state.length := by
        rw [hinv'.hstate]
        omega
      have hsdiff : s'.state.take (p + 1) ≠ s.state.take (p + 1) := by
        intro h
        have h2 : s'.state.take (c + 1) = s.state.take (c + 1) := by
          have h3 := congrArg (List.take (c + 1)) h
          rw [List.take_take, List.take_take] at h3
          have hm : min (c + 1) (p + 1) = c + 1 := by omega
          rwa [hm] at h3
        have h4 := congrArg (fun l => l.getD c 0) h2
        simp only at h4
        rw [getD_take_of_lt _ (by omega) 0, getD_take_of_lt _ (by omega) 0] at h4
        omega
      have hfc' : countAbove s'.state s'.len ≤ fuel - 1 := by
        have hlt2 := countAbove_lt_of_lexLt hperm' hlx
        rw [hlen]
        omega
      obtain ⟨hmemR, hchainR, hlenR⟩ := runFull (fuel - 1) s' hfull' hsta hfc'
      rw [hlen] at hmemR
      have hful : fuel - 1 + 1 = fuel := by
        have := countAbove_lt_of_lexLt hperm' hlx
        omega
      have hrunp : runIdx fuel (s.failPos p) = s'.state :: runIdx (fuel - 1) s' := by
        conv_lhs => rw [← hful]
        rw [runIdx_succ _ _ hnext]
      constructor
      · intro t
        rw [hrunp, List.mem_cons]
        constructor
        · intro h
          rcases h with h | h
          · subst h
            exact ⟨hperm', hlx, hsdiff⟩
          · obtain ⟨h1, h2⟩ := (hmemR t).mp h
            refine ⟨h1, lexLt_trans _ _ _ hlx h2, ?_⟩
            intro hpre
            have hlent : t.length = s.len := by
              rw [h1.length_eq]
              simp
            have hlt3 : lexLt t s'.state = true := by
              apply lexLt_of_take_eq_lt c t s'.state ?_ (by omega) (by omega) ?_
              · rw [htake]
                have h3 := congrArg (List.take c) hpre
                rw [List.take_take, List.take_take] at h3
                have hm : min c (p + 1) = c := by omega
                rwa [hm] at h3
              · have h4 := congrArg (fun l => l.getD c 0) hpre
                simp only at h4
                rw [getD_take_of_lt _ (by omega) 0,
                  getD_take_of_lt _ (by omega) 0] at h4
                omega
            have h5 := lexLt_asymm hlt3
            rw [h2] at h5
            exact Bool.noConfusion h5
        · intro ht
          obtain ⟨h1, h2, h3⟩ := ht
          rcases hminG t h1 h2 h3 with h | h
          · exact Or.inl h
          · exact Or.inr ((hmemR t).mpr ⟨h1, h⟩)
      · rw [hrunp]
        exact List.chain'_cons.mpr ⟨hlx, hchainR⟩
  refine ⟨?_, ?_, main⟩
  · intro c hc
    exact failPos_c_le inv hc
  · intro fuel t ht
    have ht2 := runIdx_mono fuel (countAbove s.state s.len + fuel) (by omega)
      _ t ht
    exact (((main _ (by omega)).1 t).mp ht2).2.2

/-- The part of C7's claim that every later `next()` call backtracks past
depth `p` is false: on input `[0,1,2,3]`, after emitting the identity and
pruning at position 0, the next call backtracks to position 0 (emitting
`[1,0,2,3]`), but the call after that one changes position 2, deeper than
the pruned depth. -/
theorem C7_counterexample :
    ∃ s₁ s₂ : TreePermutator Nat,
      (TreePermutator.new [0, 1, 2, 3]).next = .emit [0, 1, 2, 3] s₁
      ∧ (s₁.failPos 0).next = .emit [1, 0, 2, 3] s₂
      ∧ lastNonempty s₂.remaining = some 2
      ∧ ¬ (2 ≤ (0 : Nat)) := by
  refine ⟨_, _, rfl, rfl, rfl, by omega⟩

/-- Concrete instantiation of the C7 pruning theorem: on the started
permutator over `[0,1,2]`, pruning at position 0 and running to exhaustion
emits `[1,0,2]` (a sequence not sharing the pruned prefix `[0]`). -/
theorem C7_pruning_witness :
    [1, 0, 2] ∈ runIdx 6 ((({ TreePermutator.new [0, 1, 2] with
        started := true } : TreePermutator Nat)).failPos 0) := by
  have full : PermFull ({ TreePermutator.new [0, 1, 2] with started := true } :
      TreePermutator Nat) :=
    ⟨⟨(new_full _).hdata, (new_full _).hstate, (new_full _).hrem,
      (new_full _).hperm, (new_full _).hfe⟩, (new_full _).hfull⟩
  have h := (C7_pruning full rfl 0).2.2 6
    (le_trans (le_of_eq (countAbove_init 3)) (by decide))
  exact (h.1 [1, 0, 2]).mpr (by decide)

/-! ## Theorems: absence of panics (claim C10) -/

theorem runOps_isSome {T : Type} : ∀ (ops : List PermOp) (s : TreePermutator T),
    PermInv s → (runOps ops s).isSome := by
  intro ops
  induction ops with
  | nil =>
    intro s _
    simp [runOps]
  | cons op ops ih =>
    intro s inv
    cases op with
    | callNext =>
      cases hnext : s.next with
      | panic => exact absurd hnext (next_not_panic inv)
      | exhausted =>
        simp only [runOps, hnext]
        exact ih s inv
      | emit out s' =>
        simp only [runOps, hnext]
        exact ih s' (next_emit_all inv hnext).2.2.2.1
    | callFailPos p =>
      simp only [runOps]
      exact ih (s.failPos p) (failPos_inv inv p)

/-- **C10**: running any finite interleaving of `next()` and in-bounds
`fail_pos` calls against a freshly constructed tree permutator never panics
(every modelled `unwrap` succeeds), and on the empty input `next()` first
emits the empty permutation and then reports exhaustion. -/
theorem C10_no_panic {T : Type} (data : List T) (ops : List PermOp)
    (hops : ∀ op ∈ ops, op.posInBounds data.length) :
    (runOps ops (TreePermutator.new data)).isSome
    ∧ (TreePermutator.new ([] : List T)).next
        = .emit [] { TreePermutator.new ([] : List T) with started := true }
    ∧ ({ TreePermutator.new ([] : List T) with started := true } :
        TreePermutator T).next = .exhausted :=
  ⟨runOps_isSome ops _ (new_full data).toPermInv, rfl, rfl⟩

/-- Concrete instantiation of the C10 no-panic theorem: a run interleaving
two `next()` calls with a prune on a two-element input completes without a
panic. -/
theorem C10_no_panic_witness :
    (runOps [PermOp.callNext, PermOp.callFailPos 0, PermOp.callNext,
      PermOp.callNext] (TreePermutator.new ([5, 6] : List Nat))).isSome := by
  have h := C10_no_panic ([5, 6] : List Nat)
    [PermOp.callNext, PermOp.callFailPos 0, PermOp.callNext, PermOp.callNext]
    (by
      intro op hop
      fin_cases hop <;> simp [PermOp.posInBounds])
  exact h.1

end Snowcap
